import Mathlib

/-!
Verification of the Markdown export core of the factory-method exporter
repository.  Strings are modelled as lists of characters; the JavaScript
regular expressions used by the exporters are modelled by explicit
leftmost-lazy matching functions.
-/


abbrev Str := List Char

/-- The JS regex `.` metacharacter: any character except line terminators. -/
def dotMatch (c : Char) : Bool :=
  c ≠ '\n' && c ≠ '\r' && c ≠ ' ' && c ≠ ' '

/-- Whitespace as recognized by JS `String.prototype.trim` and the `\s`
regex class (the common members, line terminators included). -/
def jsWhitespace (c : Char) : Bool :=
  c = ' ' || c = '\t' || c = '\n' || c = '\r' || c = '\x0b' || c = '\x0c' ||
  c = ' ' || c = '﻿' || c = ' ' || c = ' '

/-- The ECMA-262 line terminators, after any of which the multiline `^`
anchor matches. -/
def jsLineTerminator (c : Char) : Bool :=
  c = '\n' || c = '\r' || c = ' ' || c = ' '

/-- JS `String.prototype.trim`. -/
def jsTrim (s : Str) : Str :=
  ((s.dropWhile jsWhitespace).reverse.dropWhile jsWhitespace).reverse

/-- JS `content.split('\n')`: the empty string yields one empty line. -/
def splitNl : Str → List Str
  | [] => [[]]
  | c :: t =>
    if c = '\n' then [] :: splitNl t
    else
      match splitNl t with
      | [] => [[c]]
      | h :: r => (c :: h) :: r

/-- Inverse of `splitNl`: join lines with a newline separator. -/
def joinNl : List Str → Str
  | [] => []
  | [l] => l
  | l :: ls => l ++ '\n' :: joinNl ls

/-- JS `text.split(' ')`: the empty string yields one empty word. -/
def splitSp : Str → List Str
  | [] => [[]]
  | c :: t =>
    if c = ' ' then [] :: splitSp t
    else
      match splitSp t with
      | [] => [[c]]
      | h :: r => (c :: h) :: r

/-!
Model of the inline-emphasis regexes shared (textually identical) by
`PDFExporter.parseInlineFormatting` and `DOCXExporter.parseInlineFormatting`:
the bold regex and the italic regex with its
negative lookbehind/lookahead on each delimiter.  `boldSearch s i` returns
the leftmost full match as `(index, captured inner text, text after the
match)`, with the lazy `.+?` group taking the shortest closing.
-/

/-- Lazy search for the closing double-star of the bold regex.  `innerRev`
is the inner text consumed so far, reversed; closing requires a nonempty
inner group. -/
def boldClose : Str → Str → Option (Str × Str)
  | [], _ => none
  | c :: t, innerRev =>
    if c = '*' ∧ t.head? = some '*' ∧ innerRev ≠ [] then
      some (innerRev.reverse, t.drop 1)
    else if dotMatch c then boldClose t (c :: innerRev)
    else none

/-- Leftmost match of the bold regex, starting the index count at `i`. -/
def boldSearch : Str → Nat → Option (Nat × Str × Str)
  | [], _ => none
  | c :: t, i =>
    if c = '*' ∧ t.head? = some '*' then
      match boldClose (t.drop 1) [] with
      | some (inner, rest) => some (i, inner, rest)
      | none => boldSearch t (i + 1)
    else boldSearch t (i + 1)

/-- Lazy search for the closing star of the italic regex: the closing star
must not be preceded by a star (so the last inner character is not a star)
and must not be followed by a star. -/
def italicClose : Str → Str → Option (Str × Str)
  | [], _ => none
  | c :: t, innerRev =>
    if c = '*' ∧ innerRev ≠ [] ∧ innerRev.head? ≠ some '*' ∧ t.head? ≠ some '*' then
      some (innerRev.reverse, t)
    else if dotMatch c then italicClose t (c :: innerRev)
    else none

/-- Leftmost match of the italic regex.  `prev` records whether the
previous character was a star (for the opening negative lookbehind). -/
def italicSearch : Str → Bool → Nat → Option (Nat × Str × Str)
  | [], _, _ => none
  | c :: t, prev, i =>
    if c = '*' ∧ prev = false ∧ t.head? ≠ some '*' then
      match italicClose t [] with
      | some (inner, rest) => some (i, inner, rest)
      | none => italicSearch t true (i + 1)
    else italicSearch t (decide (c = '*')) (i + 1)

theorem boldClose_len : ∀ (t acc inner rest : Str),
    boldClose t acc = some (inner, rest) → rest.length + 2 ≤ t.length := by
  intro t
  induction t with
  | nil => intro acc inner rest h; simp [boldClose] at h
  | cons c t ih =>
    intro acc inner rest h
    rw [boldClose] at h
    split at h
    · rename_i hc
      obtain ⟨hc1, hc2, hc3⟩ := hc
      cases t with
      | nil => simp at hc2
      | cons d t2 =>
        simp only [Option.some.injEq, Prod.mk.injEq] at h
        obtain ⟨h1, h2⟩ := h
        subst h2
        simp only [List.length_cons, List.length_drop]
        omega
    · split at h
      · have := ih _ _ _ h
        simp only [List.length_cons]; omega
      · simp at h

theorem boldSearch_len : ∀ (s : Str) (i j : Nat) (inner rest : Str),
    boldSearch s i = some (j, inner, rest) → rest.length < s.length := by
  intro s
  induction s with
  | nil => intro i j inner rest h; simp [boldSearch] at h
  | cons c t ih =>
    intro i j inner rest h
    rw [boldSearch] at h
    split at h
    · rename_i hc
      cases hb : boldClose (t.drop 1) [] with
      | none =>
        rw [hb] at h
        have := ih _ _ _ _ h
        simp only [List.length_cons]; omega
      | some pr =>
        obtain ⟨inner2, rest2⟩ := pr
        rw [hb] at h
        simp only [Option.some.injEq, Prod.mk.injEq] at h
        obtain ⟨h1, h2, h3⟩ := h
        subst h3
        have := boldClose_len _ _ _ _ hb
        have hd : (t.drop 1).length ≤ t.length := by
          simp [List.length_drop]
        simp only [List.length_cons]
        omega
    · have := ih _ _ _ _ h
      simp only [List.length_cons]; omega

theorem italicClose_len : ∀ (t acc inner rest : Str),
    italicClose t acc = some (inner, rest) → rest.length + 1 ≤ t.length := by
  intro t
  induction t with
  | nil => intro acc inner rest h; simp [italicClose] at h
  | cons c t ih =>
    intro acc inner rest h
    rw [italicClose] at h
    split at h
    · simp only [Option.some.injEq, Prod.mk.injEq] at h
      obtain ⟨h1, h2⟩ := h
      subst h2
      simp only [List.length_cons]
      omega
    · split at h
      · have := ih _ _ _ h
        simp only [List.length_cons]; omega
      · simp at h

theorem italicSearch_len : ∀ (s : Str) (prev : Bool) (i j : Nat) (inner rest : Str),
    italicSearch s prev i = some (j, inner, rest) → rest.length < s.length := by
  intro s
  induction s with
  | nil => intro prev i j inner rest h; simp [italicSearch] at h
  | cons c t ih =>
    intro prev i j inner rest h
    rw [italicSearch] at h
    split at h
    · cases hb : italicClose t [] with
      | none =>
        rw [hb] at h
        have := ih _ _ _ _ _ h
        simp only [List.length_cons]; omega
      | some pr =>
        obtain ⟨inner2, rest2⟩ := pr
        rw [hb] at h
        simp only [Option.some.injEq, Prod.mk.injEq] at h
        obtain ⟨h1, h2, h3⟩ := h
        subst h3
        have := italicClose_len _ _ _ _ hb
        simp only [List.length_cons]; omega
    · have := ih _ _ _ _ _ h
      simp only [List.length_cons]; omega

/-!
Segment and run types.  A PDF segment mirrors the object literals pushed by
`PDFExporter.parseInlineFormatting`; a DOCX run mirrors the `TextRun`
options built by `DOCXExporter.parseInlineFormatting` (whose italic flag is
spelled `italics`).
-/

structure PDFSeg where
  text : Str
  bold : Bool := false
  italic : Bool := false
deriving DecidableEq, Repr

structure Run where
  text : Str
  bold : Bool := false
  italics : Bool := false
deriving DecidableEq, Repr

namespace PDFExporter

/-- The body of the while loop of `PDFExporter.parseInlineFormatting`,
written with an explicit step bound so that it is structurally recursive
(each iteration consumes at least one character, so input length is an
adequate bound; `parseInlineGo_fuel` proves bound irrelevance). -/
def parseInlineGo : Nat → Str → List PDFSeg
  | _, [] => []
  | 0, c :: t => [{ text := c :: t }]
  | n + 1, c :: t =>
    let remaining : Str := c :: t
    match boldSearch remaining 0, italicSearch remaining false 0 with
    | some (j, inner, rest), none =>
        (if 0 < j then [{ text := remaining.take j }] else []) ++
          { text := inner, bold := true } :: parseInlineGo n rest
    | some (j, inner, rest), some (j2, inner2, rest2) =>
        if j ≤ j2 then
          (if 0 < j then [{ text := remaining.take j }] else []) ++
            { text := inner, bold := true } :: parseInlineGo n rest
        else
          (if 0 < j2 then [{ text := remaining.take j2 }] else []) ++
            { text := inner2, italic := true } :: parseInlineGo n rest2
    | none, some (j2, inner2, rest2) =>
        (if 0 < j2 then [{ text := remaining.take j2 }] else []) ++
          { text := inner2, italic := true } :: parseInlineGo n rest2
    | none, none => [{ text := remaining }]

/-- `PDFExporter.parseInlineFormatting`: the while loop over the unconsumed
text, choosing between the earliest bold and italic regex matches (bold
wins when its index is less than or equal), emitting the literal prefix
when the match index is positive, then the styled inner text, and
continuing after the match.  With no match the remaining text becomes a
final unstyled segment. -/
def parseInlineFormatting (remaining : Str) : List PDFSeg :=
  parseInlineGo remaining.length remaining

end PDFExporter

namespace DOCXExporter

/-- The while loop of `DOCXExporter.parseInlineFormatting`, identical in
structure to the PDF one but producing `TextRun` data; step-bounded like
`PDFExporter.parseInlineGo`. -/
def parseInlineLoopGo : Nat → Str → List Run
  | _, [] => []
  | 0, c :: t => [{ text := c :: t }]
  | n + 1, c :: t =>
    let remaining : Str := c :: t
    match boldSearch remaining 0, italicSearch remaining false 0 with
    | some (j, inner, rest), none =>
        (if 0 < j then [{ text := remaining.take j }] else []) ++
          { text := inner, bold := true } :: parseInlineLoopGo n rest
    | some (j, inner, rest), some (j2, inner2, rest2) =>
        if j ≤ j2 then
          (if 0 < j then [{ text := remaining.take j }] else []) ++
            { text := inner, bold := true } :: parseInlineLoopGo n rest
        else
          (if 0 < j2 then [{ text := remaining.take j2 }] else []) ++
            { text := inner2, italics := true } :: parseInlineLoopGo n rest2
    | none, some (j2, inner2, rest2) =>
        (if 0 < j2 then [{ text := remaining.take j2 }] else []) ++
          { text := inner2, italics := true } :: parseInlineLoopGo n rest2
    | none, none => [{ text := remaining }]

/-- The loop of `DOCXExporter.parseInlineFormatting` on the whole input. -/
def parseInlineLoop (remaining : Str) : List Run :=
  parseInlineLoopGo remaining.length remaining

/-- `DOCXExporter.parseInlineFormatting`: the loop plus the final fallback
returning a single empty run when the loop produced none. -/
def parseInlineFormatting (text : Str) : List Run :=
  let runs := parseInlineLoop text
  if runs.length > 0 then runs else [{ text := [] }]

end DOCXExporter

/-!
Line parsing.  Both exporters split the content on newlines, trim each
line and classify it; the PDF parser additionally strips emphasis markers
from heading text with two global lazy replacements.
-/

inductive LineType | h1 | h2 | paragraph | empty
deriving DecidableEq, Repr

structure PLine where
  type : LineType
  text : Str
deriving DecidableEq, Repr

/-- Lazy search for a closing double star of the global replacement regex
used on headings and by the TXT exporter; its group may be empty. -/
def gBoldClose : Str → Str → Option (Str × Str)
  | [], _ => none
  | c :: t, innerRev =>
    if c = '*' ∧ t.head? = some '*' then some (innerRev.reverse, t.drop 1)
    else if dotMatch c then gBoldClose t (c :: innerRev)
    else none

/-- Leftmost match of the global bold-replacement regex, returned as
(prefix before the match, captured group, text after the match). -/
def gBoldSearch : Str → Option (Str × Str × Str)
  | [] => none
  | c :: t =>
    if c = '*' ∧ t.head? = some '*' then
      match gBoldClose (t.drop 1) [] with
      | some (inner, rest) => some ([], inner, rest)
      | none =>
        match gBoldSearch t with
        | some (pre, inner, rest) => some (c :: pre, inner, rest)
        | none => none
    else
      match gBoldSearch t with
      | some (pre, inner, rest) => some (c :: pre, inner, rest)
      | none => none

theorem gBoldClose_len : ∀ (t acc inner rest : Str),
    gBoldClose t acc = some (inner, rest) → rest.length + 2 ≤ t.length := by
  intro t
  induction t with
  | nil => intro acc inner rest h; simp [gBoldClose] at h
  | cons c t ih =>
    intro acc inner rest h
    rw [gBoldClose] at h
    split at h
    · rename_i hc
      obtain ⟨hc1, hc2⟩ := hc
      cases t with
      | nil => simp at hc2
      | cons d t2 =>
        simp only [Option.some.injEq, Prod.mk.injEq] at h
        obtain ⟨h1, h2⟩ := h
        subst h2
        simp only [List.length_cons, List.drop_one, List.tail_cons]
        omega
    · split at h
      · have := ih _ _ _ h
        simp only [List.length_cons]; omega
      · simp at h

theorem gBoldSearch_len : ∀ (s pre inner rest : Str),
    gBoldSearch s = some (pre, inner, rest) → rest.length < s.length := by
  intro s
  induction s with
  | nil => intro pre inner rest h; simp [gBoldSearch] at h
  | cons c t ih =>
    intro pre inner rest h
    rw [gBoldSearch] at h
    split at h
    · cases hb : gBoldClose (t.drop 1) [] with
      | none =>
        rw [hb] at h
        cases hs : gBoldSearch t with
        | none => rw [hs] at h; simp at h
        | some pr =>
          obtain ⟨p2, i2, r2⟩ := pr
          rw [hs] at h
          simp only [Option.some.injEq, Prod.mk.injEq] at h
          obtain ⟨h1, h2, h3⟩ := h
          subst h3
          have := ih _ _ _ hs
          simp only [List.length_cons]; omega
      | some pr =>
        obtain ⟨i2, r2⟩ := pr
        rw [hb] at h
        simp only [Option.some.injEq, Prod.mk.injEq] at h
        obtain ⟨h1, h2, h3⟩ := h
        subst h3
        have := gBoldClose_len _ _ _ _ hb
        have hd : (t.drop 1).length ≤ t.length := by simp [List.length_drop]
        simp only [List.length_cons]; omega
    · cases hs : gBoldSearch t with
      | none => rw [hs] at h; simp at h
      | some pr =>
        obtain ⟨p2, i2, r2⟩ := pr
        rw [hs] at h
        simp only [Option.some.injEq, Prod.mk.injEq] at h
        obtain ⟨h1, h2, h3⟩ := h
        subst h3
        have := ih _ _ _ hs
        simp only [List.length_cons]; omega

/-- Step-bounded body of the global bold replacement (each replacement
consumes at least one character of the scanned text). -/
def gBoldReplGo : Nat → Str → Str
  | 0, s => s
  | n + 1, s =>
    match gBoldSearch s with
    | some (pre, inner, rest) => pre ++ inner ++ gBoldReplGo n rest
    | none => s

/-- JS `text.replace(bold-pair-regex, group)` with the `g` flag: replace
every lazy double-star pair by its captured group. -/
def gBoldRepl (s : Str) : Str := gBoldReplGo s.length s

/-- Lazy search for a closing single star of the global italic replacement
regex (no lookarounds, group may be empty). -/
def gItalClose : Str → Str → Option (Str × Str)
  | [], _ => none
  | c :: t, innerRev =>
    if c = '*' then some (innerRev.reverse, t)
    else if dotMatch c then gItalClose t (c :: innerRev)
    else none

/-- Leftmost match of the global italic-replacement regex. -/
def gItalSearch : Str → Option (Str × Str × Str)
  | [] => none
  | c :: t =>
    if c = '*' then
      match gItalClose t [] with
      | some (inner, rest) => some ([], inner, rest)
      | none =>
        match gItalSearch t with
        | some (pre, inner, rest) => some (c :: pre, inner, rest)
        | none => none
    else
      match gItalSearch t with
      | some (pre, inner, rest) => some (c :: pre, inner, rest)
      | none => none

theorem gItalClose_len : ∀ (t acc inner rest : Str),
    gItalClose t acc = some (inner, rest) → rest.length + 1 ≤ t.length := by
  intro t
  induction t with
  | nil => intro acc inner rest h; simp [gItalClose] at h
  | cons c t ih =>
    intro acc inner rest h
    rw [gItalClose] at h
    split at h
    · simp only [Option.some.injEq, Prod.mk.injEq] at h
      obtain ⟨h1, h2⟩ := h
      subst h2
      simp only [List.length_cons]
      omega
    · split at h
      · have := ih _ _ _ h
        simp only [List.length_cons]; omega
      · simp at h

theorem gItalSearch_len : ∀ (s pre inner rest : Str),
    gItalSearch s = some (pre, inner, rest) → rest.length < s.length := by
  intro s
  induction s with
  | nil => intro pre inner rest h; simp [gItalSearch] at h
  | cons c t ih =>
    intro pre inner rest h
    rw [gItalSearch] at h
    split at h
    · cases hb : gItalClose t [] with
      | none =>
        rw [hb] at h
        cases hs : gItalSearch t with
        | none => rw [hs] at h; simp at h
        | some pr =>
          obtain ⟨p2, i2, r2⟩ := pr
          rw [hs] at h
          simp only [Option.some.injEq, Prod.mk.injEq] at h
          obtain ⟨h1, h2, h3⟩ := h
          subst h3
          have := ih _ _ _ hs
          simp only [List.length_cons]; omega
      | some pr =>
        obtain ⟨i2, r2⟩ := pr
        rw [hb] at h
        simp only [Option.some.injEq, Prod.mk.injEq] at h
        obtain ⟨h1, h2, h3⟩ := h
        subst h3
        have := gItalClose_len _ _ _ _ hb
        simp only [List.length_cons]; omega
    · cases hs : gItalSearch t with
      | none => rw [hs] at h; simp at h
      | some pr =>
        obtain ⟨p2, i2, r2⟩ := pr
        rw [hs] at h
        simp only [Option.some.injEq, Prod.mk.injEq] at h
        obtain ⟨h1, h2, h3⟩ := h
        subst h3
        have := ih _ _ _ hs
        simp only [List.length_cons]; omega

/-- Step-bounded body of the global italic replacement. -/
def gItalReplGo : Nat → Str → Str
  | 0, s => s
  | n + 1, s =>
    match gItalSearch s with
    | some (pre, inner, rest) => pre ++ inner ++ gItalReplGo n rest
    | none => s

/-- JS `text.replace(italic-pair-regex, group)` with the `g` flag. -/
def gItalRepl (s : Str) : Str := gItalReplGo s.length s

/-- The two chained global replacements applied to heading text by
`PDFExporter.parseMarkdown`. -/
def stripHeadingEmphasis (t : Str) : Str := gItalRepl (gBoldRepl t)

namespace PDFExporter

/-- The per-line classification inside `PDFExporter.parseMarkdown`:
trim, then empty / heading-1 / heading-2 / paragraph, with heading text
stripped of emphasis markers. -/
def parseLine (line : Str) : PLine :=
  let trimmed := jsTrim line
  if trimmed = [] then { type := .empty, text := [] }
  else if ['#', ' '].isPrefixOf trimmed then
    { type := .h1, text := stripHeadingEmphasis (trimmed.drop 2) }
  else if ['#', '#', ' '].isPrefixOf trimmed then
    { type := .h2, text := stripHeadingEmphasis (trimmed.drop 3) }
  else { type := .paragraph, text := trimmed }

/-- `PDFExporter.parseMarkdown`: split on newlines and classify each line. -/
def parseMarkdown (content : Str) : List PLine :=
  (splitNl content).map parseLine

end PDFExporter

/-- A docx `Paragraph` node as constructed by `DOCXExporter`: either plain
text with an optional heading level, or a list of text runs. -/
inductive DocxPara
  | textPara (text : Str) (heading : Option Nat)
  | runsPara (children : List Run)
deriving DecidableEq, Repr

namespace DOCXExporter

/-- The per-line classification inside `DOCXExporter.parseMarkdownToDocx`:
heading text is the raw remainder after the marker prefix; paragraph lines
get their inline formatting parsed into runs. -/
def parseDocxLine (line : Str) : DocxPara :=
  let trimmed := jsTrim line
  if trimmed = [] then .textPara [] none
  else if ['#', ' '].isPrefixOf trimmed then .textPara (trimmed.drop 2) (some 1)
  else if ['#', '#', ' '].isPrefixOf trimmed then .textPara (trimmed.drop 3) (some 2)
  else .runsPara (parseInlineFormatting trimmed)

/-- `DOCXExporter.parseMarkdownToDocx`. -/
def parseMarkdownToDocx (content : Str) : List DocxPara :=
  (splitNl content).map parseDocxLine

end DOCXExporter

/-!
The TXT exporter.  Its heading regex is anchored per line with the
multiline flag: at each line start, one or two hash marks followed by a
greedy run of whitespace are removed.
-/

/-- One attempt of the TXT heading regex at a line-start position:
returns the consumed whitespace run and the rest on success.  The greedy
one-or-two hash group prefers two hashes; with a single hash the next
character must be whitespace, so a second hash means only the two-hash
alternative can succeed. -/
def txtHeadMatch (s : Str) : Option (Str × Str) :=
  match s with
  | [] => none
  | c :: rest =>
    if c = '#' then
      let t := if rest.head? = some '#' then rest.tail else rest
      let ws := t.takeWhile jsWhitespace
      if ws = [] then none else some (ws, t.dropWhile jsWhitespace)
    else none

theorem txtHeadMatch_len : ∀ (s ws rest : Str),
    txtHeadMatch s = some (ws, rest) → rest.length + 1 ≤ s.length := by
  intro s ws rest h
  cases s with
  | nil => simp [txtHeadMatch] at h
  | cons c t =>
    rw [txtHeadMatch] at h
    split at h
    · set u := if t.head? = some '#' then t.tail else t with hu
      have hul : u.length ≤ t.length := by
        rw [hu]
        split
        · exact t.length_tail.le.trans (by omega)
        · exact le_refl _
      dsimp only at h
      split at h
      · simp at h
      · rename_i hws
        simp only [Option.some.injEq, Prod.mk.injEq] at h
        obtain ⟨h1, h2⟩ := h
        subst h2
        have h3 : (u.takeWhile jsWhitespace).length + (u.dropWhile jsWhitespace).length
            = u.length := by
          rw [← List.length_append, List.takeWhile_append_dropWhile]
        have h4 : (u.takeWhile jsWhitespace).length ≠ 0 := by
          intro hcn
          exact hws (List.eq_nil_of_length_eq_zero hcn)
        simp only [List.length_cons]
        omega
    · simp at h

/-- The multiline global replacement of the TXT heading regex: scan the
whole content; at every line-start position try the heading match and drop
what it consumes, otherwise copy characters.  A position is a line start
at offset zero or right after a newline (including a newline consumed at
the end of a whitespace run). -/
def txtStripGo : Nat → Str → Bool → Str
  | _, [], _ => []
  | 0, c :: t, _ => c :: t
  | n + 1, c :: t, true =>
    match txtHeadMatch (c :: t) with
    | some (ws, r) => txtStripGo n r ((ws.getLast?.map jsLineTerminator).getD false)
    | none => c :: txtStripGo n t (jsLineTerminator c)
  | n + 1, c :: t, false => c :: txtStripGo n t (jsLineTerminator c)

/-- The multiline heading replacement on the whole content, starting at a
line-start position. -/
def txtStripHeadings (s : Str) (atStart : Bool) : Str := txtStripGo s.length s atStart

namespace TXTExporter

/-- `TXTExporter.stripMarkdown`: remove line-start heading markers, then
bold pairs, then italic pairs, then trim the whole document. -/
def stripMarkdown (content : Str) : Str :=
  jsTrim (gItalRepl (gBoldRepl (txtStripHeadings content true)))

end TXTExporter

/-!
The paged renderer.  The jsPDF document is abstracted by a text-width
function (depending on the current font style, which the code sets from
each segment before measuring) and a page height; drawing is recorded as
a list of draw calls.
-/

inductive FontStyle | normal | bold | italic
deriving DecidableEq, Repr

/-- One `doc.text(text, x, y)` call. -/
structure Draw where
  text : Str
  x : ℚ
  y : ℚ
deriving DecidableEq, Repr

/-- The font style `renderParagraphWithFormatting` sets for a segment. -/
def segStyle (s : PDFSeg) : FontStyle :=
  if s.bold then .bold else if s.italic then .italic else .normal

/-- The word loop of `renderParagraphWithFormatting`: each word (with a
trailing space unless last) is measured; if it would overflow the content
width the horizontal cursor returns to the left margin and the vertical
cursor advances one line height before the word is drawn. -/
def renderWords (w : Str → ℚ) (x maxWidth lh : ℚ) :
    List Str → ℚ → ℚ → List Draw × ℚ × ℚ
  | [], curX, curY => ([], curX, curY)
  | word :: rest, curX, curY =>
    let ws := if rest = [] then word else word ++ [' ']
    let wd := w ws
    if curX + wd > x + maxWidth then
      let out := renderWords w x maxWidth lh rest (x + wd) (curY + lh)
      (⟨ws, x, curY + lh⟩ :: out.1, out.2)
    else
      let out := renderWords w x maxWidth lh rest (curX + wd) curY
      (⟨ws, curX, curY⟩ :: out.1, out.2)

namespace PDFExporter

/-- `PDFExporter.renderParagraphWithFormatting`: parse the paragraph into
segments, draw each segment's words in the segment's font style with
wrapping at content width 170, and return the draw calls together with the
new vertical position (one line height past the last visual row). -/
def renderParagraphWithFormatting (width : FontStyle → Str → ℚ)
    (text : Str) (x y lineHeight : ℚ) : List Draw × ℚ :=
  let segments := parseInlineFormatting text
  let maxWidth : ℚ := 170
  let out := segments.foldl
    (fun (acc : List Draw × ℚ × ℚ) seg =>
      let o := renderWords (width (segStyle seg)) x maxWidth lineHeight
        (splitSp seg.text) acc.2.1 acc.2.2
      (acc.1 ++ o.1, o.2))
    ([], x, y)
  (out.1, out.2.2 + lineHeight)

/-- The per-line state of `PDFExporter.export`: vertical cursor, number of
`addPage` calls so far, and the accumulated draw calls. -/
structure ExpState where
  y : ℚ
  pages : Nat
  calls : List Draw
deriving DecidableEq, Repr

/-- One iteration of the line loop in `PDFExporter.export`: the page-break
check (cursor beyond page height minus the 20-unit bottom margin starts a
new page and resets the cursor to 20), then type-dependent rendering with
line height 7. -/
def exportLine (width : FontStyle → Str → ℚ) (pageHeight : ℚ)
    (st : ExpState) (line : PLine) : ExpState :=
  let st1 := if st.y > pageHeight - 20 then
    { st with y := 20, pages := st.pages + 1 } else st
  match line.type with
  | .h1 => { st1 with y := st1.y + 7 * 2, calls := st1.calls ++ [⟨line.text, 20, st1.y⟩] }
  | .h2 => { st1 with y := st1.y + 7 * (3 / 2), calls := st1.calls ++ [⟨line.text, 20, st1.y⟩] }
  | .paragraph =>
    let o := renderParagraphWithFormatting width line.text 20 st1.y 7
    { st1 with y := o.2, calls := st1.calls ++ o.1 }
  | .empty => { st1 with y := st1.y + 7 / 2 }

/-- `PDFExporter.export` (named `exportDoc` here since `export` is a Lean
keyword): parse the markdown and run the line loop from the initial cursor
position 20. -/
def exportDoc (width : FontStyle → Str → ℚ) (pageHeight : ℚ)
    (content : Str) : ExpState :=
  (parseMarkdown content).foldl (exportLine width pageHeight) ⟨20, 0, []⟩

end PDFExporter

/-!
Exporter selection (`getFactory` in `main.ts`).  Factories are one-line
wrappers creating the corresponding exporter, so a factory and its product
are modelled together by an exporter kind; the Boolean records whether the
unknown-format warning was emitted.
-/

inductive ExporterKind | txtE | pdfE | docxE
deriving DecidableEq, Repr

/-- JS `format.toLowerCase()`. -/
def jsToLowerCase (s : Str) : Str := s.map Char.toLower

/-- `getFactory`: case-insensitive dispatch on the format name, defaulting
to the TXT exporter with a logged warning. -/
def getFactory (format : Str) : ExporterKind × Bool :=
  let lf := jsToLowerCase format
  if lf = "txt".data then (.txtE, false)
  else if lf = "pdf".data then (.pdfE, false)
  else if lf = "docx".data then (.docxE, false)
  else (.txtE, true)

/-!
Balanced emphasis.  A string has balanced emphasis markers when it is a
concatenation of non-marker characters, bold spans with nonempty star-free
inner text, and italic spans with nonempty star-free inner text whose
closing marker is not immediately followed by another marker.
-/

/-- No character of the list is an emphasis marker. -/
def starFree (p : Str) : Prop := ∀ c ∈ p, c ≠ '*'

/-- Every character of the list is matched by the regex dot (no line
terminators), as the lazy inner groups require. -/
def dotOk (p : Str) : Prop := ∀ c ∈ p, dotMatch c = true

/-- Balanced-marker strings. -/
inductive Bal : Str → Prop
  | nil : Bal []
  | chr {c : Char} (hc : c ≠ '*') {s : Str} (h : Bal s) : Bal (c :: s)
  | bold {p s : Str} (hp : p ≠ []) (hf : starFree p) (hd : dotOk p)
      (h : Bal s) : Bal ('*' :: '*' :: (p ++ '*' :: '*' :: s))
  | ital {p s : Str} (hp : p ≠ []) (hf : starFree p) (hd : dotOk p)
      (hs : s.head? ≠ some '*') (h : Bal s) : Bal ('*' :: (p ++ '*' :: s))

/-- Concatenation of the text fields of a segment list. -/
def segsText (l : List PDFSeg) : Str := (l.map PDFSeg.text).flatten

/-- The input with every emphasis marker character removed. -/
def removeStars (s : Str) : Str := s.filter (fun c => c ≠ '*')

/-!
Fuel adequacy: the step bounds used by the structurally recursive loop
bodies do not matter as long as they dominate the input length, since
every iteration strictly consumes input.
-/

theorem parseInlineGo_fuel : ∀ (n : Nat) (s : Str), s.length ≤ n →
    PDFExporter.parseInlineGo n s = PDFExporter.parseInlineFormatting s := by
  intro n
  induction n using Nat.strong_induction_on with
  | _ n ih =>
    intro s hs
    cases s with
    | nil => cases n <;> rfl
    | cons c t =>
      cases n with
      | zero => simp at hs
      | succ n =>
        rw [PDFExporter.parseInlineFormatting]
        simp only [List.length_cons]
        have hlen : t.length + 1 ≤ n + 1 := by simpa using hs
        cases hb : boldSearch (c :: t) 0 with
        | some pr =>
          obtain ⟨j, a, r⟩ := pr
          have hr := boldSearch_len (c :: t) 0 j a r hb
          simp only [List.length_cons] at hr
          cases hi : italicSearch (c :: t) false 0 with
          | none =>
            simp only [PDFExporter.parseInlineGo, hb, hi]
            rw [ih n (by omega) r (by omega), ih t.length (by omega) r (by omega)]
          | some pr2 =>
            obtain ⟨j2, a2, r2⟩ := pr2
            have hr2 := italicSearch_len (c :: t) false 0 j2 a2 r2 hi
            simp only [List.length_cons] at hr2
            simp only [PDFExporter.parseInlineGo, hb, hi]
            by_cases hjj : j ≤ j2
            · rw [if_pos hjj, if_pos hjj, ih n (by omega) r (by omega),
                ih t.length (by omega) r (by omega)]
            · rw [if_neg hjj, if_neg hjj, ih n (by omega) r2 (by omega),
                ih t.length (by omega) r2 (by omega)]
        | none =>
          cases hi : italicSearch (c :: t) false 0 with
          | none => simp only [PDFExporter.parseInlineGo, hb, hi]
          | some pr2 =>
            obtain ⟨j2, a2, r2⟩ := pr2
            have hr2 := italicSearch_len (c :: t) false 0 j2 a2 r2 hi
            simp only [List.length_cons] at hr2
            simp only [PDFExporter.parseInlineGo, hb, hi]
            rw [ih n (by omega) r2 (by omega), ih t.length (by omega) r2 (by omega)]

theorem parseInlineLoopGo_fuel : ∀ (n : Nat) (s : Str), s.length ≤ n →
    DOCXExporter.parseInlineLoopGo n s = DOCXExporter.parseInlineLoop s := by
  intro n
  induction n using Nat.strong_induction_on with
  | _ n ih =>
    intro s hs
    cases s with
    | nil => cases n <;> rfl
    | cons c t =>
      cases n with
      | zero => simp at hs
      | succ n =>
        rw [DOCXExporter.parseInlineLoop]
        simp only [List.length_cons]
        have hlen : t.length + 1 ≤ n + 1 := by simpa using hs
        cases hb : boldSearch (c :: t) 0 with
        | some pr =>
          obtain ⟨j, a, r⟩ := pr
          have hr := boldSearch_len (c :: t) 0 j a r hb
          simp only [List.length_cons] at hr
          cases hi : italicSearch (c :: t) false 0 with
          | none =>
            simp only [DOCXExporter.parseInlineLoopGo, hb, hi]
            rw [ih n (by omega) r (by omega), ih t.length (by omega) r (by omega)]
          | some pr2 =>
            obtain ⟨j2, a2, r2⟩ := pr2
            have hr2 := italicSearch_len (c :: t) false 0 j2 a2 r2 hi
            simp only [List.length_cons] at hr2
            simp only [DOCXExporter.parseInlineLoopGo, hb, hi]
            by_cases hjj : j ≤ j2
            · rw [if_pos hjj, if_pos hjj, ih n (by omega) r (by omega),
                ih t.length (by omega) r (by omega)]
            · rw [if_neg hjj, if_neg hjj, ih n (by omega) r2 (by omega),
                ih t.length (by omega) r2 (by omega)]
        | none =>
          cases hi : italicSearch (c :: t) false 0 with
          | none => simp only [DOCXExporter.parseInlineLoopGo, hb, hi]
          | some pr2 =>
            obtain ⟨j2, a2, r2⟩ := pr2
            have hr2 := italicSearch_len (c :: t) false 0 j2 a2 r2 hi
            simp only [List.length_cons] at hr2
            simp only [DOCXExporter.parseInlineLoopGo, hb, hi]
            rw [ih n (by omega) r2 (by omega), ih t.length (by omega) r2 (by omega)]

/-!
Unfolding lemmas for the inline parsing loops: one lemma per way the loop
can take a step (bold token, italic token, no token).
-/

theorem parseInline_nil : PDFExporter.parseInlineFormatting [] = [] := rfl

theorem docxLoop_nil : DOCXExporter.parseInlineLoop [] = [] := rfl

theorem parseInline_no_match (s : Str) (h : s ≠ [])
    (hb : boldSearch s 0 = none) (hi : italicSearch s false 0 = none) :
    PDFExporter.parseInlineFormatting s = [{ text := s }] := by
  obtain ⟨c, t, rfl⟩ := List.exists_cons_of_ne_nil h
  rw [PDFExporter.parseInlineFormatting]
  simp only [List.length_cons]
  simp only [PDFExporter.parseInlineGo, hb, hi]

theorem parseInline_bold (s : Str) (j : Nat) (a r : Str)
    (hb : boldSearch s 0 = some (j, a, r))
    (hle : ∀ j2 a2 r2, italicSearch s false 0 = some (j2, a2, r2) → j ≤ j2) :
    PDFExporter.parseInlineFormatting s =
      (if 0 < j then [{ text := s.take j }] else []) ++
        { text := a, bold := true } :: PDFExporter.parseInlineFormatting r := by
  have h : s ≠ [] := by intro he; subst he; simp [boldSearch] at hb
  obtain ⟨c, t, rfl⟩ := List.exists_cons_of_ne_nil h
  have hr := boldSearch_len (c :: t) 0 j a r hb
  simp only [List.length_cons] at hr
  rw [PDFExporter.parseInlineFormatting]
  simp only [List.length_cons]
  cases hi : italicSearch (c :: t) false 0 with
  | none =>
    simp only [PDFExporter.parseInlineGo, hb, hi]
    rw [parseInlineGo_fuel t.length r (by omega)]
  | some pr2 =>
    obtain ⟨j2, a2, r2⟩ := pr2
    simp only [PDFExporter.parseInlineGo, hb, hi]
    rw [if_pos (hle _ _ _ hi), parseInlineGo_fuel t.length r (by omega)]

theorem parseInline_ital (s : Str) (j2 : Nat) (a2 r2 : Str)
    (hi : italicSearch s false 0 = some (j2, a2, r2))
    (hgt : ∀ j a r, boldSearch s 0 = some (j, a, r) → j2 < j) :
    PDFExporter.parseInlineFormatting s =
      (if 0 < j2 then [{ text := s.take j2 }] else []) ++
        { text := a2, italic := true } :: PDFExporter.parseInlineFormatting r2 := by
  have h : s ≠ [] := by intro he; subst he; simp [italicSearch] at hi
  obtain ⟨c, t, rfl⟩ := List.exists_cons_of_ne_nil h
  have hr2 := italicSearch_len (c :: t) false 0 j2 a2 r2 hi
  simp only [List.length_cons] at hr2
  rw [PDFExporter.parseInlineFormatting]
  simp only [List.length_cons]
  cases hb : boldSearch (c :: t) 0 with
  | none =>
    simp only [PDFExporter.parseInlineGo, hb, hi]
    rw [parseInlineGo_fuel t.length r2 (by omega)]
  | some pr =>
    obtain ⟨j, a, r⟩ := pr
    simp only [PDFExporter.parseInlineGo, hb, hi]
    have := hgt _ _ _ hb
    rw [if_neg (by omega), parseInlineGo_fuel t.length r2 (by omega)]

theorem docxLoop_no_match (s : Str) (h : s ≠ [])
    (hb : boldSearch s 0 = none) (hi : italicSearch s false 0 = none) :
    DOCXExporter.parseInlineLoop s = [{ text := s }] := by
  obtain ⟨c, t, rfl⟩ := List.exists_cons_of_ne_nil h
  rw [DOCXExporter.parseInlineLoop]
  simp only [List.length_cons]
  simp only [DOCXExporter.parseInlineLoopGo, hb, hi]

theorem docxLoop_bold (s : Str) (j : Nat) (a r : Str)
    (hb : boldSearch s 0 = some (j, a, r))
    (hle : ∀ j2 a2 r2, italicSearch s false 0 = some (j2, a2, r2) → j ≤ j2) :
    DOCXExporter.parseInlineLoop s =
      (if 0 < j then [{ text := s.take j }] else []) ++
        { text := a, bold := true } :: DOCXExporter.parseInlineLoop r := by
  have h : s ≠ [] := by intro he; subst he; simp [boldSearch] at hb
  obtain ⟨c, t, rfl⟩ := List.exists_cons_of_ne_nil h
  have hr := boldSearch_len (c :: t) 0 j a r hb
  simp only [List.length_cons] at hr
  rw [DOCXExporter.parseInlineLoop]
  simp only [List.length_cons]
  cases hi : italicSearch (c :: t) false 0 with
  | none =>
    simp only [DOCXExporter.parseInlineLoopGo, hb, hi]
    rw [parseInlineLoopGo_fuel t.length r (by omega)]
  | some pr2 =>
    obtain ⟨j2, a2, r2⟩ := pr2
    simp only [DOCXExporter.parseInlineLoopGo, hb, hi]
    rw [if_pos (hle _ _ _ hi), parseInlineLoopGo_fuel t.length r (by omega)]

theorem docxLoop_ital (s : Str) (j2 : Nat) (a2 r2 : Str)
    (hi : italicSearch s false 0 = some (j2, a2, r2))
    (hgt : ∀ j a r, boldSearch s 0 = some (j, a, r) → j2 < j) :
    DOCXExporter.parseInlineLoop s =
      (if 0 < j2 then [{ text := s.take j2 }] else []) ++
        { text := a2, italics := true } :: DOCXExporter.parseInlineLoop r2 := by
  have h : s ≠ [] := by intro he; subst he; simp [italicSearch] at hi
  obtain ⟨c, t, rfl⟩ := List.exists_cons_of_ne_nil h
  have hr2 := italicSearch_len (c :: t) false 0 j2 a2 r2 hi
  simp only [List.length_cons] at hr2
  rw [DOCXExporter.parseInlineLoop]
  simp only [List.length_cons]
  cases hb : boldSearch (c :: t) 0 with
  | none =>
    simp only [DOCXExporter.parseInlineLoopGo, hb, hi]
    rw [parseInlineLoopGo_fuel t.length r2 (by omega)]
  | some pr =>
    obtain ⟨j, a, r⟩ := pr
    simp only [DOCXExporter.parseInlineLoopGo, hb, hi]
    have := hgt _ _ _ hb
    rw [if_neg (by omega), parseInlineLoopGo_fuel t.length r2 (by omega)]

theorem parseInline_ne_nil (s : Str) (h : s ≠ []) :
    PDFExporter.parseInlineFormatting s ≠ [] := by
  obtain ⟨c, t, rfl⟩ := List.exists_cons_of_ne_nil h
  rw [PDFExporter.parseInlineFormatting]
  simp only [List.length_cons]
  cases hb : boldSearch (c :: t) 0 with
  | some pr =>
    obtain ⟨j, a, r⟩ := pr
    cases hi : italicSearch (c :: t) false 0 with
    | none =>
      simp only [PDFExporter.parseInlineGo, hb, hi]
      simp
    | some pr2 =>
      obtain ⟨j2, a2, r2⟩ := pr2
      simp only [PDFExporter.parseInlineGo, hb, hi]
      split <;> simp
  | none =>
    cases hi : italicSearch (c :: t) false 0 with
    | none =>
      simp only [PDFExporter.parseInlineGo, hb, hi]
      simp
    | some pr2 =>
      obtain ⟨j2, a2, r2⟩ := pr2
      simp only [PDFExporter.parseInlineGo, hb, hi]
      simp

/-- A PDF segment viewed as the corresponding docx run. -/
def runOfSeg (g : PDFSeg) : Run := { text := g.text, bold := g.bold, italics := g.italic }

theorem docxLoop_eq_map : ∀ (n : Nat) (s : Str), s.length ≤ n →
    DOCXExporter.parseInlineLoop s = (PDFExporter.parseInlineFormatting s).map runOfSeg := by
  intro n
  induction n with
  | zero =>
    intro s hs
    have h : s = [] := by
      cases s with
      | nil => rfl
      | cons c t => simp at hs
    subst h
    rw [parseInline_nil, docxLoop_nil]
    rfl
  | succ n ih =>
    intro s hs
    by_cases h : s = []
    · subst h
      rw [parseInline_nil, docxLoop_nil]
      rfl
    · cases hb : boldSearch s 0 with
      | some pr =>
        obtain ⟨j, a, r⟩ := pr
        cases hi : italicSearch s false 0 with
        | none =>
          have hle : ∀ j2 a2 r2, italicSearch s false 0 = some (j2, a2, r2) → j ≤ j2 := by
            intro j2 a2 r2 h2
            rw [hi] at h2
            exact absurd h2 (by simp)
          rw [parseInline_bold s j a r hb hle, docxLoop_bold s j a r hb hle]
          have hr := boldSearch_len s 0 j a r hb
          rw [ih r (by omega)]
          by_cases hj : 0 < j
          · rw [if_pos hj, if_pos hj]
            rfl
          · rw [if_neg hj, if_neg hj]
            rfl
        | some pr2 =>
          obtain ⟨j2, a2, r2⟩ := pr2
          by_cases hjj : j ≤ j2
          · have hle : ∀ j2x a2x r2x, italicSearch s false 0 = some (j2x, a2x, r2x) → j ≤ j2x := by
              intro j2x a2x r2x h2
              rw [hi] at h2
              injection h2 with h2
              injection h2 with e1 e2
              omega
            rw [parseInline_bold s j a r hb hle, docxLoop_bold s j a r hb hle]
            have hr := boldSearch_len s 0 j a r hb
            rw [ih r (by omega)]
            by_cases hj : 0 < j
            · rw [if_pos hj, if_pos hj]; rfl
            · rw [if_neg hj, if_neg hj]; rfl
          · have hgt : ∀ jx ax rx, boldSearch s 0 = some (jx, ax, rx) → j2 < jx := by
              intro jx ax rx h2
              rw [hb] at h2
              injection h2 with h2
              injection h2 with e1 e2
              omega
            rw [parseInline_ital s j2 a2 r2 hi hgt, docxLoop_ital s j2 a2 r2 hi hgt]
            have hr := italicSearch_len s false 0 j2 a2 r2 hi
            rw [ih r2 (by omega)]
            by_cases hj : 0 < j2
            · rw [if_pos hj, if_pos hj]; rfl
            · rw [if_neg hj, if_neg hj]; rfl
      | none =>
        cases hi : italicSearch s false 0 with
        | none =>
          rw [parseInline_no_match s h hb hi, docxLoop_no_match s h hb hi]
          rfl
        | some pr2 =>
          obtain ⟨j2, a2, r2⟩ := pr2
          have hgt : ∀ jx ax rx, boldSearch s 0 = some (jx, ax, rx) → j2 < jx := by
            intro jx ax rx h2
            rw [hb] at h2
            exact absurd h2 (by simp)
          rw [parseInline_ital s j2 a2 r2 hi hgt, docxLoop_ital s j2 a2 r2 hi hgt]
          have hr := italicSearch_len s false 0 j2 a2 r2 hi
          rw [ih r2 (by omega)]
          by_cases hj : 0 < j2
          · rw [if_pos hj, if_pos hj]; rfl
          · rw [if_neg hj, if_neg hj]; rfl

/-- C10: the two independently duplicated inline-emphasis parsers are
behaviourally equivalent: for every non-empty input, the docx parser's run
sequence is exactly the PDF parser's segment sequence with each segment's
text and bold/italic flags carried over run for run. -/
theorem c10_inline_parsers_equivalent (s : Str) (h : s ≠ []) :
    DOCXExporter.parseInlineFormatting s =
      (PDFExporter.parseInlineFormatting s).map runOfSeg := by
  unfold DOCXExporter.parseInlineFormatting
  rw [docxLoop_eq_map s.length s (le_refl _)]
  have hne := parseInline_ne_nil s h
  have hlen : 0 < (PDFExporter.parseInlineFormatting s).length :=
    List.length_pos.mpr hne
  rw [if_pos (by simpa using hlen)]

/-- Witness for C10 at the concrete input of the spec's running example. -/
theorem c10_inline_parsers_equivalent_witness :
    DOCXExporter.parseInlineFormatting "**a** and *b*".data =
      (PDFExporter.parseInlineFormatting "**a** and *b*".data).map runOfSeg :=
  c10_inline_parsers_equivalent "**a** and *b*".data (by decide)

/-- C4: the inline parser repeatedly takes the earliest bold and italic
matches of the unconsumed text, choosing bold whenever a bold match exists
and starts at or before the italic match (ties favor bold), emitting the
preceding literal text unstyled and the captured inner text styled; the
input with a bold span, literal text and an italic span yields exactly the
three segments Bold, unstyled, Italic in order. -/
theorem c4_emphasis_tiebreak :
    (∀ (s : Str) (j : Nat) (a r : Str),
      boldSearch s 0 = some (j, a, r) →
      (∀ j2 a2 r2, italicSearch s false 0 = some (j2, a2, r2) → j ≤ j2) →
      PDFExporter.parseInlineFormatting s =
        (if 0 < j then [{ text := s.take j }] else []) ++
          { text := a, bold := true } :: PDFExporter.parseInlineFormatting r) ∧
    (∀ (s : Str) (j2 : Nat) (a2 r2 : Str),
      italicSearch s false 0 = some (j2, a2, r2) →
      (∀ j a r, boldSearch s 0 = some (j, a, r) → j2 < j) →
      PDFExporter.parseInlineFormatting s =
        (if 0 < j2 then [{ text := s.take j2 }] else []) ++
          { text := a2, italic := true } :: PDFExporter.parseInlineFormatting r2) ∧
    PDFExporter.parseInlineFormatting "**a** and *b*".data =
      [{ text := "a".data, bold := true }, { text := " and ".data },
       { text := "b".data, italic := true }] :=
  ⟨parseInline_bold, parseInline_ital, by decide⟩

/-- Witness for C4: the bold match of the example starts at index 0 and
wins against the italic match at index 10. -/
theorem c4_emphasis_tiebreak_witness :
    PDFExporter.parseInlineFormatting "**a** and *b*".data =
      (if 0 < 0 then [{ text := ("**a** and *b*".data).take 0 }] else []) ++
        { text := "a".data, bold := true } ::
          PDFExporter.parseInlineFormatting " and *b*".data :=
  c4_emphasis_tiebreak.1 "**a** and *b*".data 0 "a".data " and *b*".data
    (by decide) (fun j2 _ _ _ => Nat.zero_le j2)

/-- C8 (amended): the inline parser is total; a non-empty input on which
neither the bold nor the italic regex matches yields exactly one unstyled
segment equal to the input (so malformed or unterminated markers appear
verbatim); the empty string yields zero segments. -/
theorem c8_malformed_markers_literal :
    (∀ s : Str, s ≠ [] → boldSearch s 0 = none → italicSearch s false 0 = none →
      PDFExporter.parseInlineFormatting s = [{ text := s }]) ∧
    PDFExporter.parseInlineFormatting [] = [] :=
  ⟨parseInline_no_match, parseInline_nil⟩

/-- Witness for C8 at the spec's example of a single trailing star. -/
theorem c8_malformed_markers_literal_witness :
    PDFExporter.parseInlineFormatting "abc*".data = [{ text := "abc*".data }] :=
  c8_malformed_markers_literal.1 "abc*".data (by decide) (by decide) (by decide)

/-- Counterexample for C8 as stated: the empty string contains no complete
marker pair but yields zero segments, not one unstyled segment equal to
the input. -/
theorem c8_malformed_markers_literal_counterexample :
    PDFExporter.parseInlineFormatting [] ≠ [{ text := [] }] := by decide

/-- C7: exporter selection lower-cases the format name, matches it against
txt, pdf and docx, and for any other value falls back to the TXT exporter
with a warning instead of failing. -/
theorem c7_format_selection (s : Str) :
    (jsToLowerCase s = "txt".data → getFactory s = (.txtE, false)) ∧
    (jsToLowerCase s = "pdf".data → getFactory s = (.pdfE, false)) ∧
    (jsToLowerCase s = "docx".data → getFactory s = (.docxE, false)) ∧
    (jsToLowerCase s ≠ "txt".data → jsToLowerCase s ≠ "pdf".data →
      jsToLowerCase s ≠ "docx".data → getFactory s = (.txtE, true)) := by
  refine ⟨fun h => ?_, fun h => ?_, fun h => ?_, fun h1 h2 h3 => ?_⟩
  · simp only [getFactory]
    rw [h]
    decide
  · simp only [getFactory]
    rw [h]
    decide
  · simp only [getFactory]
    rw [h]
    decide
  · simp only [getFactory]
    rw [if_neg h1, if_neg h2, if_neg h3]

/-- Witness for C7: an upper-case recognized name and the unrecognized
name rtf. -/
theorem c7_format_selection_witness :
    getFactory "PDF".data = (.pdfE, false) ∧ getFactory "rtf".data = (.txtE, true) :=
  ⟨(c7_format_selection "PDF".data).2.1 (by decide),
   (c7_format_selection "rtf".data).2.2.2 (by decide) (by decide) (by decide)⟩

theorem docx_parseInlineFormatting_ne_nil (t : Str) :
    DOCXExporter.parseInlineFormatting t ≠ [] := by
  unfold DOCXExporter.parseInlineFormatting
  by_cases h : (DOCXExporter.parseInlineLoop t).length > 0
  · rw [if_pos h]
    exact List.length_pos.mp h
  · rw [if_neg h]
    simp

/-- C9: every paragraph node built by the docx renderer from a paragraph
line carries a non-empty run list, thanks to the single-empty-run fallback
of the inline parser. -/
theorem c9_paragraph_has_run (content : Str) (p : DocxPara)
    (hp : p ∈ DOCXExporter.parseMarkdownToDocx content) (rs : List Run)
    (he : p = .runsPara rs) : rs ≠ [] := by
  unfold DOCXExporter.parseMarkdownToDocx at hp
  obtain ⟨l, hl, hpl⟩ := List.mem_map.mp hp
  subst hpl
  unfold DOCXExporter.parseDocxLine at he
  dsimp only at he
  split at he
  · exact absurd he (by simp)
  · split at he
    · exact absurd he (by simp)
    · split at he
      · exact absurd he (by simp)
      · injection he with he2
        rw [← he2]
        exact docx_parseInlineFormatting_ne_nil _

/-- Witness for C9 at a one-line paragraph document. -/
theorem c9_paragraph_has_run_witness :
    (DocxPara.runsPara [{ text := "x".data }] ∈
      DOCXExporter.parseMarkdownToDocx "x".data) ∧
    ([{ text := "x".data }] : List Run) ≠ [] :=
  ⟨by decide, c9_paragraph_has_run "x".data _ (by decide) _ rfl⟩

/-!
The spec's line pipeline (§4.1), as a second definition written from the
spec's words, for comparison with the two parsers embedded from the code.
-/

inductive SpecKind | heading1 | heading2 | para | emptyLine
deriving DecidableEq, Repr

structure SpecLine where
  kind : SpecKind
  text : Str
deriving DecidableEq, Repr

/-- Following the spec's words: trim the line, then classify with the
precedence empty, heading-1 marker, heading-2 marker, paragraph; heading
text is the remainder after the two- or three-character prefix. -/
def specClassifyLine (line : Str) : SpecLine :=
  let t := jsTrim line
  if t = [] then { kind := .emptyLine, text := [] }
  else if ['#', ' '].isPrefixOf t then { kind := .heading1, text := t.drop 2 }
  else if ['#', '#', ' '].isPrefixOf t then { kind := .heading2, text := t.drop 3 }
  else { kind := .para, text := t }

/-- Following the spec's words: split on line breaks and classify each
line, one `Line` per input line, order preserved. -/
def specParseLines (content : Str) : List SpecLine :=
  (splitNl content).map specClassifyLine

/-- How a spec line surfaces in the PDF parser: same kind, with heading
text additionally stripped of emphasis markers. -/
def pdfOfSpec : SpecLine → PLine
  | { kind := .emptyLine, text := _ } => { type := .empty, text := [] }
  | { kind := .heading1, text := t } => { type := .h1, text := stripHeadingEmphasis t }
  | { kind := .heading2, text := t } => { type := .h2, text := stripHeadingEmphasis t }
  | { kind := .para, text := t } => { type := .paragraph, text := t }

/-- How a spec line surfaces in the docx renderer: heading text verbatim,
paragraph text parsed into runs. -/
def docxOfSpec : SpecLine → DocxPara
  | { kind := .emptyLine, text := _ } => .textPara [] none
  | { kind := .heading1, text := t } => .textPara t (some 1)
  | { kind := .heading2, text := t } => .textPara t (some 2)
  | { kind := .para, text := t } => .runsPara (DOCXExporter.parseInlineFormatting t)

theorem pdf_parseLine_eq_spec (l : Str) :
    PDFExporter.parseLine l = pdfOfSpec (specClassifyLine l) := by
  unfold PDFExporter.parseLine specClassifyLine
  dsimp only
  by_cases h1 : jsTrim l = []
  · simp [h1, pdfOfSpec]
  · by_cases h2 : ['#', ' '].isPrefixOf (jsTrim l)
    · simp [h1, h2, pdfOfSpec]
    · by_cases h3 : ['#', '#', ' '].isPrefixOf (jsTrim l)
      · simp [h1, h2, h3, pdfOfSpec]
      · simp [h1, h2, h3, pdfOfSpec]

theorem docx_parseDocxLine_eq_spec (l : Str) :
    DOCXExporter.parseDocxLine l = docxOfSpec (specClassifyLine l) := by
  unfold DOCXExporter.parseDocxLine specClassifyLine
  dsimp only
  by_cases h1 : jsTrim l = []
  · simp [h1, docxOfSpec]
  · by_cases h2 : ['#', ' '].isPrefixOf (jsTrim l)
    · simp [h1, h2, docxOfSpec]
    · by_cases h3 : ['#', '#', ' '].isPrefixOf (jsTrim l)
      · simp [h1, h2, h3, docxOfSpec]
      · simp [h1, h2, h3, docxOfSpec]

/-- C5 (amended): both parsers realize the spec's line pipeline — split on
line breaks, trim, classify by the stated precedence, one line each, no
error — with heading text equal to the remainder after the prefix in the
docx parser, while the PDF parser additionally strips emphasis markers
from heading text; the three heading-detection examples behave as stated
in both parsers. -/
theorem c5_line_classification :
    (∀ content : Str,
      PDFExporter.parseMarkdown content = (specParseLines content).map pdfOfSpec) ∧
    (∀ content : Str,
      DOCXExporter.parseMarkdownToDocx content = (specParseLines content).map docxOfSpec) ∧
    DOCXExporter.parseDocxLine "# Title".data = .textPara "Title".data (some 1) ∧
    DOCXExporter.parseDocxLine "## Sub".data = .textPara "Sub".data (some 2) ∧
    DOCXExporter.parseDocxLine "### X".data = .runsPara [{ text := "### X".data }] ∧
    PDFExporter.parseLine "# Title".data = { type := .h1, text := "Title".data } ∧
    PDFExporter.parseLine "## Sub".data = { type := .h2, text := "Sub".data } ∧
    PDFExporter.parseLine "### X".data = { type := .paragraph, text := "### X".data } := by
  refine ⟨fun content => ?_, fun content => ?_, by decide, by decide, by decide,
    by decide, by decide, by decide⟩
  · unfold PDFExporter.parseMarkdown specParseLines
    rw [List.map_map]
    exact List.map_congr_left fun l _ => pdf_parseLine_eq_spec l
  · unfold DOCXExporter.parseMarkdownToDocx specParseLines
    rw [List.map_map]
    exact List.map_congr_left fun l _ => docx_parseDocxLine_eq_spec l

/-- Counterexample for C5 as stated: in the PDF parser a heading's text is
not the raw remainder after the prefix — emphasis markers are stripped. -/
theorem c5_line_classification_counterexample :
    PDFExporter.parseMarkdown "# **a**".data =
      [{ type := .h1, text := "a".data }] ∧
    ("a".data : Str) ≠ "**a**".data := ⟨by decide, by decide⟩

/-- C1 (amended): when the docx renderer classifies a line as a heading
(keeping the remainder after the prefix verbatim, markers included), the
PDF parser classifies it identically and its heading text is exactly that
remainder with the two global emphasis replacements applied; on a heading
with bold and italic spans the PDF heading text has all marker pairs
removed. -/
theorem c1_heading_emphasis_stripping (l : Str) :
    (∀ t, DOCXExporter.parseDocxLine l = .textPara t (some 1) →
      PDFExporter.parseLine l = { type := .h1, text := stripHeadingEmphasis t }) ∧
    (∀ t, DOCXExporter.parseDocxLine l = .textPara t (some 2) →
      PDFExporter.parseLine l = { type := .h2, text := stripHeadingEmphasis t }) ∧
    PDFExporter.parseLine "# **a** *b*".data = { type := .h1, text := "a b".data } := by
  refine ⟨fun t ht => ?_, fun t ht => ?_, by decide⟩
  · unfold DOCXExporter.parseDocxLine at ht
    dsimp only at ht
    unfold PDFExporter.parseLine
    dsimp only
    split at ht
    · exact absurd ht (by simp)
    · split at ht
      · injection ht with e1 e2
        rename_i h1 h2
        rw [if_neg h1, if_pos h2, e1]
      · split at ht
        · injection ht with e1 e2
          injection e2 with e2
          exact absurd e2 (by omega)
        · exact absurd ht (by simp)
  · unfold DOCXExporter.parseDocxLine at ht
    dsimp only at ht
    unfold PDFExporter.parseLine
    dsimp only
    split at ht
    · exact absurd ht (by simp)
    · split at ht
      · injection ht with e1 e2
        injection e2 with e2
        exact absurd e2 (by omega)
      · split at ht
        · injection ht with e1 e2
          rename_i h1 h2 h3
          rw [if_neg h1, if_neg h2, if_pos h3, e1]
        · exact absurd ht (by simp)

/-- Witness for C1 at a heading line with a bold span. -/
theorem c1_heading_emphasis_stripping_witness :
    DOCXExporter.parseDocxLine "# **a**".data = .textPara "**a**".data (some 1) ∧
    PDFExporter.parseLine "# **a**".data =
      { type := .h1, text := stripHeadingEmphasis "**a**".data } :=
  ⟨by decide,
   (c1_heading_emphasis_stripping "# **a**".data).1 "**a**".data (by decide)⟩

/-- Counterexample for C1 as stated: the docx renderer's heading text
keeps the emphasis markers instead of stripping them. -/
theorem c1_heading_emphasis_stripping_counterexample :
    DOCXExporter.parseMarkdownToDocx "# **a**".data =
      [.textPara "**a**".data (some 1)] ∧
    ("**a**".data : Str) ≠ "a".data := ⟨by decide, by decide⟩

/-- C2 (amended): the page-break check runs once per logical line: when
the cursor exceeds the page height minus the 20-unit bottom margin,
exactly one page is added and the cursor resets to the top margin before
drawing, and otherwise no page is added; consequently every heading is
drawn at a cursor position within the threshold (for any page height of
at least 40 units).  The check is not repeated for wrapped visual rows
inside a paragraph, which may therefore be drawn past the threshold. -/
theorem c2_page_break (width : FontStyle → Str → ℚ) (pageHeight : ℚ)
    (st : PDFExporter.ExpState) (line : PLine) (hph : 40 ≤ pageHeight) :
    ((st.y ≤ pageHeight - 20 →
       (PDFExporter.exportLine width pageHeight st line).pages = st.pages) ∧
     (pageHeight - 20 < st.y →
       (PDFExporter.exportLine width pageHeight st line).pages = st.pages + 1)) ∧
    (∀ c : Draw, line.type = .h1 ∨ line.type = .h2 →
      (PDFExporter.exportLine width pageHeight st line).calls = st.calls ++ [c] →
      c.y ≤ pageHeight - 20) := by
  obtain ⟨ty, tx⟩ := line
  unfold PDFExporter.exportLine
  dsimp only
  by_cases hy : st.y > pageHeight - 20
  · rw [if_pos hy]
    cases ty
    · refine ⟨⟨fun h => absurd hy (by simp [not_lt.mpr h]), fun _ => rfl⟩, ?_⟩
      intro c _ hc
      have := List.append_cancel_left hc
      injection this with e1 _
      rw [← e1]
      dsimp only
      linarith
    · refine ⟨⟨fun h => absurd hy (by simp [not_lt.mpr h]), fun _ => rfl⟩, ?_⟩
      intro c _ hc
      have := List.append_cancel_left hc
      injection this with e1 _
      rw [← e1]
      dsimp only
      linarith
    · refine ⟨⟨fun h => absurd hy (by simp [not_lt.mpr h]), fun _ => rfl⟩, ?_⟩
      intro c hor _
      cases hor with
      | inl h => exact absurd h (by simp)
      | inr h => exact absurd h (by simp)
    · refine ⟨⟨fun h => absurd hy (by simp [not_lt.mpr h]), fun _ => rfl⟩, ?_⟩
      intro c hor _
      cases hor with
      | inl h => exact absurd h (by simp)
      | inr h => exact absurd h (by simp)
  · rw [if_neg hy]
    have hyle : st.y ≤ pageHeight - 20 := not_lt.mp hy
    cases ty
    · refine ⟨⟨fun _ => rfl, fun h => absurd h hy⟩, ?_⟩
      intro c _ hc
      have := List.append_cancel_left hc
      injection this with e1 _
      rw [← e1]
      exact hyle
    · refine ⟨⟨fun _ => rfl, fun h => absurd h hy⟩, ?_⟩
      intro c _ hc
      have := List.append_cancel_left hc
      injection this with e1 _
      rw [← e1]
      exact hyle
    · refine ⟨⟨fun _ => rfl, fun h => absurd h hy⟩, ?_⟩
      intro c hor _
      cases hor with
      | inl h => exact absurd h (by simp)
      | inr h => exact absurd h (by simp)
    · refine ⟨⟨fun _ => rfl, fun h => absurd h hy⟩, ?_⟩
      intro c hor _
      cases hor with
      | inl h => exact absurd h (by simp)
      | inr h => exact absurd h (by simp)

/-- Witness for C2: a heading line with the cursor at 280 on a 297-unit
page exceeds the threshold 277, adds exactly one page and is drawn at the
reset position 20, within the threshold. -/
theorem c2_page_break_witness :
    (PDFExporter.exportLine (fun _ _ => 5) 297 ⟨280, 0, []⟩ ⟨.h1, ['T']⟩).pages = 0 + 1 ∧
    (⟨['T'], 20, 20⟩ : Draw).y ≤ 297 - 20 := by
  have hcalls : (PDFExporter.exportLine (fun _ _ => 5) 297 ⟨280, 0, []⟩
      ⟨.h1, ['T']⟩).calls = ([] : List Draw) ++ [⟨['T'], 20, 20⟩] := by
    unfold PDFExporter.exportLine
    dsimp only
    rw [if_pos (by norm_num)]
  exact ⟨(c2_page_break (fun _ _ => 5) 297 ⟨280, 0, []⟩ ⟨.h1, ['T']⟩
            (by norm_num)).1.2 (by norm_num),
         (c2_page_break (fun _ _ => 5) 297 ⟨280, 0, []⟩ ⟨.h1, ['T']⟩
            (by norm_num)).2 ⟨['T'], 20, 20⟩ (Or.inl rfl) hcalls⟩

/-- Counterexample for C2 as stated: with page height 46 (threshold 26)
and every word 100 units wide, the one-paragraph document draws its second
word on a wrapped visual row at cursor position 27, beyond the threshold,
because the page-break check is per logical line only. -/
theorem c2_page_break_counterexample :
    ∃ d ∈ (PDFExporter.exportDoc (fun _ _ => 100) 46 ['a','a',' ','b','b']).calls,
      (46:ℚ) - 20 < d.y := by
  have hrw : renderWords (fun _ => (100:ℚ)) 20 170 7 [['a','a'], ['b','b']] 20 20 =
      ([⟨['a','a',' '], 20, 20⟩, ⟨['b','b'], 20, 27⟩], 120, 27) := by
    norm_num [renderWords]
  have hseg : PDFExporter.parseInlineFormatting ['a','a',' ','b','b'] =
      [{ text := ['a','a',' ','b','b'] }] := by decide
  have hsp : splitSp ['a','a',' ','b','b'] = [['a','a'], ['b','b']] := by decide
  have hpara : PDFExporter.renderParagraphWithFormatting (fun _ _ => 100)
      ['a','a',' ','b','b'] 20 20 7 =
      ([⟨['a','a',' '], 20, 20⟩, ⟨['b','b'], 20, 27⟩], 34) := by
    unfold PDFExporter.renderParagraphWithFormatting
    rw [hseg]
    dsimp only [List.foldl]
    rw [hsp, hrw]
    norm_num
  have hpm : PDFExporter.parseMarkdown ['a','a',' ','b','b'] =
      [{ type := .paragraph, text := ['a','a',' ','b','b'] }] := by decide
  have hcalls : (PDFExporter.exportDoc (fun _ _ => 100) 46
      ['a','a',' ','b','b']).calls =
      [⟨['a','a',' '], 20, 20⟩, ⟨['b','b'], 20, 27⟩] := by
    unfold PDFExporter.exportDoc
    rw [hpm]
    dsimp only [List.foldl]
    unfold PDFExporter.exportLine
    dsimp only
    rw [if_neg (by norm_num)]
    rw [hpara]
    rfl
  refine ⟨⟨['b','b'], 20, 27⟩, ?_, by norm_num⟩
  rw [hcalls]
  simp

/-!
Lemmas about the searches needed for the segment-reconstruction property:
index monotonicity, index shifting, and the exact matches found at the
start of a balanced bold or italic block.
-/

theorem boldSearch_le : ∀ (s : Str) (i j : Nat) (a r : Str),
    boldSearch s i = some (j, a, r) → i ≤ j := by
  intro s
  induction s with
  | nil => intro i j a r h; simp [boldSearch] at h
  | cons c t ih =>
    intro i j a r h
    rw [boldSearch] at h
    split at h
    · cases hb : boldClose (t.drop 1) [] with
      | none =>
        rw [hb] at h
        have := ih _ _ _ _ h
        omega
      | some pr =>
        obtain ⟨a2, r2⟩ := pr
        rw [hb] at h
        injection h with h
        injection h with e1 e2
        omega
    · have := ih _ _ _ _ h
      omega

theorem boldSearch_succ : ∀ (s : Str) (i : Nat),
    boldSearch s (i + 1) = (boldSearch s i).map (fun x => (x.1 + 1, x.2)) := by
  intro s
  induction s with
  | nil => intro i; simp [boldSearch]
  | cons c t ih =>
    intro i
    rw [boldSearch, boldSearch]
    split
    · cases hb : boldClose (t.drop 1) [] with
      | none => simp only [ih]
      | some pr => obtain ⟨a, r⟩ := pr; rfl
    · simp only [ih]

theorem italicSearch_succ : ∀ (s : Str) (prev : Bool) (i : Nat),
    italicSearch s prev (i + 1) = (italicSearch s prev i).map (fun x => (x.1 + 1, x.2)) := by
  intro s
  induction s with
  | nil => intro prev i; simp [italicSearch]
  | cons c t ih =>
    intro prev i
    rw [italicSearch, italicSearch]
    split
    · cases hb : italicClose t [] with
      | none => simp only [ih]
      | some pr => obtain ⟨a, r⟩ := pr; rfl
    · simp only [ih]

theorem boldSearch_cons_ne (c : Char) (hc : c ≠ '*') (s : Str) (i : Nat) :
    boldSearch (c :: s) i = boldSearch s (i + 1) := by
  rw [boldSearch]
  rw [if_neg (by intro h; exact hc h.1)]

theorem italicSearch_cons_ne (c : Char) (hc : c ≠ '*') (s : Str) (prev : Bool) (i : Nat) :
    italicSearch (c :: s) prev i = italicSearch s false (i + 1) := by
  rw [italicSearch]
  rw [if_neg (by intro h; exact hc h.1)]
  have : decide (c = '*') = false := by simpa using hc
  rw [this]

theorem boldClose_block : ∀ (p : Str), p ≠ [] → starFree p → dotOk p →
    ∀ (acc r : Str), boldClose (p ++ '*' :: '*' :: r) acc = some (acc.reverse ++ p, r) := by
  intro p
  induction p with
  | nil => intro h; exact absurd rfl h
  | cons x p ih =>
    intro _ hf hd acc r
    have hx : x ≠ '*' := hf x (by simp)
    have hdx : dotMatch x = true := hd x (by simp)
    rw [List.cons_append, boldClose]
    rw [if_neg (by intro h; exact hx h.1), if_pos hdx]
    cases p with
    | nil =>
      rw [List.nil_append, boldClose]
      rw [if_pos (by refine ⟨rfl, rfl, by simp⟩)]
      simp
    | cons y p2 =>
      rw [ih (by simp) (fun a ha => hf a (by simp [ha]))
        (fun a ha => hd a (by simp [ha])) (x :: acc) r]
      simp

theorem italicClose_block : ∀ (p : Str), p ≠ [] → starFree p → dotOk p →
    ∀ (acc r : Str), r.head? ≠ some '*' →
      italicClose (p ++ '*' :: r) acc = some (acc.reverse ++ p, r) := by
  intro p
  induction p with
  | nil => intro h; exact absurd rfl h
  | cons x p ih =>
    intro _ hf hd acc r hr
    have hx : x ≠ '*' := hf x (by simp)
    have hdx : dotMatch x = true := hd x (by simp)
    rw [List.cons_append, italicClose]
    rw [if_neg (by intro h; exact hx h.1), if_pos hdx]
    cases p with
    | nil =>
      rw [List.nil_append, italicClose]
      rw [if_pos (by refine ⟨rfl, by simp, by simpa using hx, hr⟩)]
      simp
    | cons y p2 =>
      rw [ih (by simp) (fun a ha => hf a (by simp [ha]))
        (fun a ha => hd a (by simp [ha])) (x :: acc) r hr]
      simp

theorem boldSearch_block (p : Str) (hp : p ≠ []) (hf : starFree p) (hd : dotOk p)
    (i : Nat) (r : Str) :
    boldSearch ('*' :: '*' :: (p ++ '*' :: '*' :: r)) i = some (i, p, r) := by
  rw [boldSearch]
  rw [if_pos ⟨rfl, by rw [List.head?_cons]⟩]
  have : (('*' :: (p ++ '*' :: '*' :: r)).drop 1) = p ++ '*' :: '*' :: r := by simp
  rw [this, boldClose_block p hp hf hd [] r]
  simp

theorem italicSearch_block (p : Str) (hp : p ≠ []) (hf : starFree p) (hd : dotOk p)
    (i : Nat) (r : Str) (hr : r.head? ≠ some '*') :
    italicSearch ('*' :: (p ++ '*' :: r)) false i = some (i, p, r) := by
  rw [italicSearch]
  have hhd : (p ++ '*' :: r).head? ≠ some '*' := by
    cases p with
    | nil => exact absurd rfl hp
    | cons x p2 =>
      have hx : x ≠ '*' := hf x (by simp)
      simpa using hx
  rw [if_pos ⟨rfl, rfl, hhd⟩]
  rw [italicClose_block p hp hf hd [] r hr]
  simp

theorem boldSearch_italBlock_pos (p : Str) (hp : p ≠ []) (hf : starFree p)
    (r : Str) (j : Nat) (a rr : Str)
    (h : boldSearch ('*' :: (p ++ '*' :: r)) 0 = some (j, a, rr)) : 0 < j := by
  rw [boldSearch] at h
  rw [if_neg (by
    intro hcond
    obtain ⟨h1, h2⟩ := hcond
    apply absurd h2
    cases p with
    | nil => exact absurd rfl hp
    | cons x p2 =>
      have hx : x ≠ '*' := hf x (by simp)
      simpa using hx)] at h
  have := boldSearch_le _ _ _ _ _ h
  omega

theorem segsText_nil : segsText [] = [] := rfl

theorem segsText_cons (g : PDFSeg) (l : List PDFSeg) :
    segsText (g :: l) = g.text ++ segsText l := rfl

theorem segsText_chunk (j : Nat) (s : Str) (g : PDFSeg) (l : List PDFSeg) :
    segsText ((if 0 < j then [{ text := s.take j }] else []) ++ g :: l) =
      s.take j ++ (g.text ++ segsText l) := by
  by_cases hj : 0 < j
  · rw [if_pos hj]
    simp [segsText, List.append_assoc]
  · have h0 : j = 0 := by omega
    subst h0
    rw [if_neg hj]
    simp [segsText]

theorem removeStars_cons_ne (c : Char) (hc : c ≠ '*') (s : Str) :
    removeStars (c :: s) = c :: removeStars s := by
  simp [removeStars, List.filter_cons, hc]

theorem removeStars_append (a b : Str) :
    removeStars (a ++ b) = removeStars a ++ removeStars b := by
  simp [removeStars]

theorem removeStars_starFree (p : Str) (hf : starFree p) : removeStars p = p :=
  List.filter_eq_self.mpr (fun c hc => by simpa using hf c hc)

theorem removeStars_star (s : Str) : removeStars ('*' :: s) = removeStars s := by
  simp [removeStars, List.filter_cons]

theorem segsText_parse_cons (c : Char) (hc : c ≠ '*') (s : Str) :
    segsText (PDFExporter.parseInlineFormatting (c :: s)) =
      c :: segsText (PDFExporter.parseInlineFormatting s) := by
  have hb0 : boldSearch (c :: s) 0 =
      (boldSearch s 0).map (fun x => (x.1 + 1, x.2)) := by
    rw [boldSearch_cons_ne c hc s 0]
    exact boldSearch_succ s 0
  have hi0 : italicSearch (c :: s) false 0 =
      (italicSearch s false 0).map (fun x => (x.1 + 1, x.2)) := by
    rw [italicSearch_cons_ne c hc s false 0]
    exact italicSearch_succ s false 0
  cases hB : boldSearch s 0 with
  | some prb =>
    obtain ⟨j, a, r⟩ := prb
    cases hI : italicSearch s false 0 with
    | none =>
      have hb1 : boldSearch (c :: s) 0 = some (j + 1, a, r) := by rw [hb0, hB]; rfl
      have hi1 : italicSearch (c :: s) false 0 = none := by rw [hi0, hI]; rfl
      rw [parseInline_bold (c :: s) (j + 1) a r hb1
        (by intro j2 a2 r2 h2; rw [hi1] at h2; cases h2)]
      rw [parseInline_bold s j a r hB
        (by intro j2 a2 r2 h2; rw [hI] at h2; cases h2)]
      rw [segsText_chunk, segsText_chunk, List.take_succ_cons]
      simp
    | some pri =>
      obtain ⟨j2, a2, r2⟩ := pri
      have hb1 : boldSearch (c :: s) 0 = some (j + 1, a, r) := by rw [hb0, hB]; rfl
      have hi1 : italicSearch (c :: s) false 0 = some (j2 + 1, a2, r2) := by
        rw [hi0, hI]; rfl
      by_cases hjj : j ≤ j2
      · rw [parseInline_bold (c :: s) (j + 1) a r hb1
          (by intro jx ax rx h2; rw [hi1] at h2; injection h2 with h2;
              injection h2 with e1 e2; omega)]
        rw [parseInline_bold s j a r hB
          (by intro jx ax rx h2; rw [hI] at h2; injection h2 with h2;
              injection h2 with e1 e2; omega)]
        rw [segsText_chunk, segsText_chunk, List.take_succ_cons]
        simp
      · rw [parseInline_ital (c :: s) (j2 + 1) a2 r2 hi1
          (by intro jx ax rx h2; rw [hb1] at h2; injection h2 with h2;
              injection h2 with e1 e2; omega)]
        rw [parseInline_ital s j2 a2 r2 hI
          (by intro jx ax rx h2; rw [hB] at h2; injection h2 with h2;
              injection h2 with e1 e2; omega)]
        rw [segsText_chunk, segsText_chunk, List.take_succ_cons]
        simp
  | none =>
    cases hI : italicSearch s false 0 with
    | none =>
      have hb1 : boldSearch (c :: s) 0 = none := by rw [hb0, hB]; rfl
      have hi1 : italicSearch (c :: s) false 0 = none := by rw [hi0, hI]; rfl
      rw [parseInline_no_match (c :: s) (by simp) hb1 hi1]
      by_cases hs : s = []
      · subst hs
        rw [parseInline_nil]
        simp [segsText]
      · rw [parseInline_no_match s hs hB hI]
        simp [segsText]
    | some pri =>
      obtain ⟨j2, a2, r2⟩ := pri
      have hb1 : boldSearch (c :: s) 0 = none := by rw [hb0, hB]; rfl
      have hi1 : italicSearch (c :: s) false 0 = some (j2 + 1, a2, r2) := by
        rw [hi0, hI]; rfl
      rw [parseInline_ital (c :: s) (j2 + 1) a2 r2 hi1
        (by intro jx ax rx h2; rw [hb1] at h2; cases h2)]
      rw [parseInline_ital s j2 a2 r2 hI
        (by intro jx ax rx h2; rw [hB] at h2; cases h2)]
      rw [segsText_chunk, segsText_chunk, List.take_succ_cons]
      simp

/-- C3 (amended): for every input with balanced emphasis markers in which
no italic span's closing marker is immediately followed by another marker,
concatenating the text fields of the parsed segments in order equals the
input with all emphasis marker characters removed: no other character is
dropped, duplicated or reordered. -/
theorem c3_segment_reconstruction : ∀ s : Str, Bal s →
    segsText (PDFExporter.parseInlineFormatting s) = removeStars s := by
  intro s hb
  induction hb with
  | nil => rw [parseInline_nil]; rfl
  | @chr c hc s h ih =>
    rw [segsText_parse_cons c hc s, ih, removeStars_cons_ne c hc s]
  | @bold p s hp hf hd h ih =>
    have hbs := boldSearch_block p hp hf hd 0 s
    rw [parseInline_bold _ 0 p s hbs (fun j2 a2 r2 _ => Nat.zero_le j2)]
    rw [segsText_chunk]
    simp only [List.take_zero, List.nil_append]
    rw [ih, removeStars_star, removeStars_star, removeStars_append,
      removeStars_starFree p hf, removeStars_star, removeStars_star]
  | @ital p s hp hf hd hs h ih =>
    have his := italicSearch_block p hp hf hd 0 s hs
    have hgt : ∀ j a r, boldSearch ('*' :: (p ++ '*' :: s)) 0 = some (j, a, r) → 0 < j :=
      fun j a r hh => boldSearch_italBlock_pos p hp hf s j a r hh
    rw [parseInline_ital _ 0 p s his hgt]
    rw [segsText_chunk]
    simp only [List.take_zero, List.nil_append]
    rw [ih, removeStars_star, removeStars_append,
      removeStars_starFree p hf, removeStars_star]

/-- Witness for C3 at a balanced input with a bold span and a literal
character. -/
theorem c3_segment_reconstruction_witness :
    Bal ['*', '*', 'a', '*', '*', 'b'] ∧
    segsText (PDFExporter.parseInlineFormatting ['*', '*', 'a', '*', '*', 'b']) =
      removeStars ['*', '*', 'a', '*', '*', 'b'] := by
  have hb : Bal ['*', '*', 'a', '*', '*', 'b'] :=
    Bal.bold (p := ['a']) (s := ['b']) (by decide)
      (by unfold starFree; decide) (by unfold dotOk; decide)
      (Bal.chr (by decide) Bal.nil)
  exact ⟨hb, c3_segment_reconstruction _ hb⟩

/-- Counterexample for C3 as stated: on the input of two adjacent italic
spans, whose markers are all paired, the closing lookahead of the first
span fails, the parser matches one big italic span, and the concatenation
keeps two marker characters. -/
theorem c3_segment_reconstruction_counterexample :
    segsText (PDFExporter.parseInlineFormatting "*a**b*".data) = "a**b".data ∧
    removeStars "*a**b*".data = "ab".data ∧
    ("a**b".data : Str) ≠ "ab".data := ⟨by decide, by decide, by decide⟩


/-!
Lemmas for the TXT pipeline: splitting and joining lines, bound adequacy
and unfolding for the global replacements and the heading replacement, and
the newline-barrier property of the replacement regexes.
-/

theorem splitNl_ne_nil : ∀ s : Str, splitNl s ≠ [] := by
  intro s
  cases s with
  | nil => simp [splitNl]
  | cons c t =>
    rw [splitNl]
    split
    · simp
    · cases hs : splitNl t <;> simp

theorem joinNl_cons_cons (c : Char) (h : Str) (r : List Str) :
    joinNl ((c :: h) :: r) = c :: joinNl (h :: r) := by
  cases r with
  | nil => rfl
  | cons x r2 => rfl

theorem joinNl_splitNl : ∀ s : Str, joinNl (splitNl s) = s := by
  intro s
  induction s with
  | nil => rfl
  | cons c t ih =>
    rw [splitNl]
    by_cases hc : c = '\n'
    · rw [if_pos hc, hc]
      obtain ⟨h, r, hs⟩ := List.exists_cons_of_ne_nil (splitNl_ne_nil t)
      rw [hs]
      rw [hs] at ih
      show joinNl ([] :: h :: r) = '\n' :: t
      rw [show joinNl ([] :: h :: r) = [] ++ '\n' :: joinNl (h :: r) from rfl]
      rw [ih]
      rfl
    · rw [if_neg hc]
      obtain ⟨h, r, hs⟩ := List.exists_cons_of_ne_nil (splitNl_ne_nil t)
      rw [hs]
      rw [hs] at ih
      rw [joinNl_cons_cons, ih]

theorem splitNl_no_nl : ∀ (s : Str) (l : Str), l ∈ splitNl s → ∀ c ∈ l, c ≠ '\n' := by
  intro s
  induction s with
  | nil =>
    intro l hl c hc
    simp [splitNl] at hl
    subst hl
    simp at hc
  | cons a t ih =>
    intro l hl c hc
    rw [splitNl] at hl
    by_cases ha : a = '\n'
    · rw [if_pos ha] at hl
      cases hl with
      | head => simp at hc
      | tail _ hl2 => exact ih l hl2 c hc
    · rw [if_neg ha] at hl
      obtain ⟨h, r, hs⟩ := List.exists_cons_of_ne_nil (splitNl_ne_nil t)
      rw [hs] at hl
      cases hl with
      | head =>
        cases hc with
        | head => exact ha
        | tail _ hc2 => exact ih h (by rw [hs]; exact List.mem_cons_self h r) c hc2
      | tail _ hl2 =>
        exact ih l (by rw [hs]; exact List.mem_cons_of_mem h hl2) c hc

theorem gBoldReplGo_none (s : Str) (hs : gBoldSearch s = none) :
    ∀ m : Nat, gBoldReplGo m s = s := by
  intro m
  cases m with
  | zero => rfl
  | succ m => simp only [gBoldReplGo, hs]

theorem gBoldReplGo_fuel : ∀ (n : Nat) (s : Str), s.length ≤ n →
    gBoldReplGo n s = gBoldRepl s := by
  intro n
  induction n using Nat.strong_induction_on with
  | _ n ih =>
    intro s hlen
    cases hs : gBoldSearch s with
    | none => rw [gBoldReplGo_none s hs n, gBoldRepl, gBoldReplGo_none s hs]
    | some pr =>
      obtain ⟨p, i, r⟩ := pr
      have hne : s ≠ [] := by intro he; subst he; simp [gBoldSearch] at hs
      have hpos : 0 < s.length := List.length_pos.mpr hne
      have hr := gBoldSearch_len s p i r hs
      cases n with
      | zero => omega
      | succ n =>
        rw [gBoldRepl]
        have hk : s.length = (s.length - 1) + 1 := by omega
        rw [hk]
        simp only [gBoldReplGo, hs]
        rw [ih n (by omega) r (by omega), ih (s.length - 1) (by omega) r (by omega)]

theorem gBoldRepl_some (s p i r : Str) (hs : gBoldSearch s = some (p, i, r)) :
    gBoldRepl s = p ++ i ++ gBoldRepl r := by
  have hne : s ≠ [] := by intro he; subst he; simp [gBoldSearch] at hs
  have hpos : 0 < s.length := List.length_pos.mpr hne
  have hr := gBoldSearch_len s p i r hs
  rw [gBoldRepl]
  have hk : s.length = (s.length - 1) + 1 := by omega
  rw [hk]
  simp only [gBoldReplGo, hs]
  rw [gBoldReplGo_fuel (s.length - 1) r (by omega)]

theorem gBoldRepl_none (s : Str) (hs : gBoldSearch s = none) : gBoldRepl s = s := by
  rw [gBoldRepl, gBoldReplGo_none s hs]

theorem gItalReplGo_none (s : Str) (hs : gItalSearch s = none) :
    ∀ m : Nat, gItalReplGo m s = s := by
  intro m
  cases m with
  | zero => rfl
  | succ m => simp only [gItalReplGo, hs]

theorem gItalReplGo_fuel : ∀ (n : Nat) (s : Str), s.length ≤ n →
    gItalReplGo n s = gItalRepl s := by
  intro n
  induction n using Nat.strong_induction_on with
  | _ n ih =>
    intro s hlen
    cases hs : gItalSearch s with
    | none => rw [gItalReplGo_none s hs n, gItalRepl, gItalReplGo_none s hs]
    | some pr =>
      obtain ⟨p, i, r⟩ := pr
      have hne : s ≠ [] := by intro he; subst he; simp [gItalSearch] at hs
      have hpos : 0 < s.length := List.length_pos.mpr hne
      have hr := gItalSearch_len s p i r hs
      cases n with
      | zero => omega
      | succ n =>
        rw [gItalRepl]
        have hk : s.length = (s.length - 1) + 1 := by omega
        rw [hk]
        simp only [gItalReplGo, hs]
        rw [ih n (by omega) r (by omega), ih (s.length - 1) (by omega) r (by omega)]

theorem gItalRepl_some (s p i r : Str) (hs : gItalSearch s = some (p, i, r)) :
    gItalRepl s = p ++ i ++ gItalRepl r := by
  have hne : s ≠ [] := by intro he; subst he; simp [gItalSearch] at hs
  have hpos : 0 < s.length := List.length_pos.mpr hne
  have hr := gItalSearch_len s p i r hs
  rw [gItalRepl]
  have hk : s.length = (s.length - 1) + 1 := by omega
  rw [hk]
  simp only [gItalReplGo, hs]
  rw [gItalReplGo_fuel (s.length - 1) r (by omega)]

theorem gItalRepl_none (s : Str) (hs : gItalSearch s = none) : gItalRepl s = s := by
  rw [gItalRepl, gItalReplGo_none s hs]

theorem gBoldClose_nl : ∀ (u acc v : Str),
    gBoldClose (u ++ '\n' :: v) acc =
      (gBoldClose u acc).map (fun pr => (pr.1, pr.2 ++ '\n' :: v)) := by
  intro u
  induction u with
  | nil =>
    intro acc v
    rw [List.nil_append]
    rw [show gBoldClose ('\n' :: v) acc = none from by
      rw [gBoldClose]
      rw [if_neg (by intro h; exact absurd h.1 (by decide)), if_neg (by decide)]]
    rfl
  | cons c u ih =>
    intro acc v
    rw [List.cons_append, gBoldClose, gBoldClose]
    by_cases h1 : c = '*' ∧ u.head? = some '*'
    · have h1' : c = '*' ∧ (u ++ '\n' :: v).head? = some '*' := by
        obtain ⟨ha, hb⟩ := h1
        refine ⟨ha, ?_⟩
        cases u with
        | nil => simp at hb
        | cons d u2 => simpa using hb
      rw [if_pos h1', if_pos h1]
      obtain ⟨d, u2, rfl⟩ : ∃ d u2, u = d :: u2 := by
        cases u with
        | nil => exact absurd h1.2 (by simp)
        | cons d u2 => exact ⟨d, u2, rfl⟩
      simp
    · have h1' : ¬(c = '*' ∧ (u ++ '\n' :: v).head? = some '*') := by
        intro hcon
        obtain ⟨ha, hb⟩ := hcon
        apply h1
        refine ⟨ha, ?_⟩
        cases u with
        | nil =>
          rw [List.nil_append, List.head?_cons] at hb
          injection hb with hb2
          exact absurd hb2 (by decide)
        | cons d u2 => simpa using hb
      rw [if_neg h1', if_neg h1]
      by_cases h2 : dotMatch c = true
      · rw [if_pos h2, if_pos h2, ih]
      · rw [if_neg h2, if_neg h2]
        rfl

theorem gBoldSearch_nl : ∀ (a b : Str),
    gBoldSearch (a ++ '\n' :: b) =
      (match gBoldSearch a with
       | some (p, i, r) => some (p, i, r ++ '\n' :: b)
       | none => (gBoldSearch b).map (fun x => (a ++ '\n' :: x.1, x.2))) := by
  intro a
  induction a with
  | nil =>
    intro b
    rw [List.nil_append]
    rw [show gBoldSearch ('\n' :: b) =
        (match gBoldSearch b with
         | some (p, i, r) => some ('\n' :: p, i, r)
         | none => none) from by
      rw [gBoldSearch]
      rw [if_neg (by intro h; exact absurd h.1 (by decide))]]
    cases hb : gBoldSearch b with
    | none => rfl
    | some x => obtain ⟨p, i, r⟩ := x; rfl
  | cons c a ih =>
    intro b
    rw [List.cons_append, gBoldSearch, gBoldSearch]
    by_cases h1 : c = '*' ∧ a.head? = some '*'
    · have h1' : c = '*' ∧ (a ++ '\n' :: b).head? = some '*' := by
        obtain ⟨ha, hb⟩ := h1
        refine ⟨ha, ?_⟩
        cases a with
        | nil => simp at hb
        | cons d a2 => simpa using hb
      rw [if_pos h1', if_pos h1]
      obtain ⟨d, a2, rfl⟩ : ∃ d a2, a = d :: a2 := by
        cases a with
        | nil => exact absurd h1.2 (by simp)
        | cons d a2 => exact ⟨d, a2, rfl⟩
      have hdrop : ((d :: a2) ++ '\n' :: b).drop 1 = a2 ++ '\n' :: b := by simp
      have hdrop2 : (d :: a2).drop 1 = a2 := by simp
      rw [hdrop, hdrop2, gBoldClose_nl a2 [] b]
      cases hc : gBoldClose a2 [] with
      | some pr =>
        obtain ⟨i0, r0⟩ := pr
        rfl
      | none =>
        simp only [Option.map_none]
        rw [ih b]
        cases hs : gBoldSearch (d :: a2) with
        | none =>
          cases hsb : gBoldSearch b with
          | none => rfl
          | some x => obtain ⟨p, i, r⟩ := x; rfl
        | some x => obtain ⟨p, i, r⟩ := x; rfl
    · have h1' : ¬(c = '*' ∧ (a ++ '\n' :: b).head? = some '*') := by
        intro hcon
        obtain ⟨ha, hb⟩ := hcon
        apply h1
        refine ⟨ha, ?_⟩
        cases a with
        | nil =>
          rw [List.nil_append, List.head?_cons] at hb
          injection hb with hb2
          exact absurd hb2 (by decide)
        | cons d a2 => simpa using hb
      rw [if_neg h1', if_neg h1, ih b]
      cases hs : gBoldSearch a with
      | none =>
        cases hsb : gBoldSearch b with
        | none => rfl
        | some x => obtain ⟨p, i, r⟩ := x; rfl
      | some x => obtain ⟨p, i, r⟩ := x; rfl

theorem gBoldRepl_nl : ∀ (n : Nat) (a : Str), a.length ≤ n → ∀ b : Str,
    gBoldRepl (a ++ '\n' :: b) = gBoldRepl a ++ '\n' :: gBoldRepl b := by
  intro n
  induction n using Nat.strong_induction_on with
  | _ n ih =>
    intro a hlen b
    cases ha : gBoldSearch a with
    | some x =>
      obtain ⟨p, i, r⟩ := x
      have hs : gBoldSearch (a ++ '\n' :: b) = some (p, i, r ++ '\n' :: b) := by
        rw [gBoldSearch_nl, ha]
      have hr := gBoldSearch_len a p i r ha
      have hne : a ≠ [] := by intro he; subst he; simp [gBoldSearch] at ha
      have hpos : 0 < a.length := List.length_pos.mpr hne
      rw [gBoldRepl_some _ _ _ _ hs, gBoldRepl_some _ _ _ _ ha]
      cases n with
      | zero => omega
      | succ n =>
        rw [ih n (by omega) r (by omega) b]
        simp [List.append_assoc]
    | none =>
      cases hb : gBoldSearch b with
      | some x =>
        obtain ⟨p, i, r⟩ := x
        have hs : gBoldSearch (a ++ '\n' :: b) = some (a ++ '\n' :: p, i, r) := by
          rw [gBoldSearch_nl, ha, hb]
          rfl
        rw [gBoldRepl_some _ _ _ _ hs, gBoldRepl_none a ha, gBoldRepl_some _ _ _ _ hb]
        simp [List.append_assoc]
      | none =>
        have hs : gBoldSearch (a ++ '\n' :: b) = none := by
          rw [gBoldSearch_nl, ha, hb]
          rfl
        rw [gBoldRepl_none _ hs, gBoldRepl_none a ha, gBoldRepl_none b hb]

theorem gBoldRepl_join : ∀ ls : List Str,
    gBoldRepl (joinNl ls) = joinNl (ls.map gBoldRepl) := by
  intro ls
  induction ls with
  | nil => rfl
  | cons l ls ih =>
    cases ls with
    | nil => rfl
    | cons x xs =>
      rw [show joinNl (l :: x :: xs) = l ++ '\n' :: joinNl (x :: xs) from rfl]
      rw [gBoldRepl_nl l.length l (le_refl _) (joinNl (x :: xs)), ih]
      rfl

theorem gItalClose_nl : ∀ (u acc v : Str),
    gItalClose (u ++ '\n' :: v) acc =
      (gItalClose u acc).map (fun pr => (pr.1, pr.2 ++ '\n' :: v)) := by
  intro u
  induction u with
  | nil =>
    intro acc v
    rw [List.nil_append]
    rw [show gItalClose ('\n' :: v) acc = none from by
      rw [gItalClose]
      rw [if_neg (by decide), if_neg (by decide)]]
    rfl
  | cons c u ih =>
    intro acc v
    rw [List.cons_append, gItalClose, gItalClose]
    by_cases h1 : c = '*'
    · rw [if_pos h1, if_pos h1]
      rfl
    · rw [if_neg h1, if_neg h1]
      by_cases h2 : dotMatch c = true
      · rw [if_pos h2, if_pos h2, ih]
      · rw [if_neg h2, if_neg h2]
        rfl

theorem gItalSearch_nl : ∀ (a b : Str),
    gItalSearch (a ++ '\n' :: b) =
      (match gItalSearch a with
       | some (p, i, r) => some (p, i, r ++ '\n' :: b)
       | none => (gItalSearch b).map (fun x => (a ++ '\n' :: x.1, x.2))) := by
  intro a
  induction a with
  | nil =>
    intro b
    rw [List.nil_append]
    rw [show gItalSearch ('\n' :: b) =
        (match gItalSearch b with
         | some (p, i, r) => some ('\n' :: p, i, r)
         | none => none) from by
      rw [gItalSearch]
      rw [if_neg (by decide)]]
    cases hb : gItalSearch b with
    | none => rfl
    | some x => obtain ⟨p, i, r⟩ := x; rfl
  | cons c a ih =>
    intro b
    rw [List.cons_append, gItalSearch, gItalSearch]
    by_cases h1 : c = '*'
    · rw [if_pos h1, if_pos h1]
      rw [gItalClose_nl a [] b]
      cases hc : gItalClose a [] with
      | some pr =>
        obtain ⟨i0, r0⟩ := pr
        rfl
      | none =>
        simp only [Option.map_none]
        rw [ih b]
        cases hs : gItalSearch a with
        | none =>
          cases hsb : gItalSearch b with
          | none => rfl
          | some x => obtain ⟨p, i, r⟩ := x; rfl
        | some x => obtain ⟨p, i, r⟩ := x; rfl
    · rw [if_neg h1, if_neg h1, ih b]
      cases hs : gItalSearch a with
      | none =>
        cases hsb : gItalSearch b with
        | none => rfl
        | some x => obtain ⟨p, i, r⟩ := x; rfl
      | some x => obtain ⟨p, i, r⟩ := x; rfl

theorem gItalRepl_nl : ∀ (n : Nat) (a : Str), a.length ≤ n → ∀ b : Str,
    gItalRepl (a ++ '\n' :: b) = gItalRepl a ++ '\n' :: gItalRepl b := by
  intro n
  induction n using Nat.strong_induction_on with
  | _ n ih =>
    intro a hlen b
    cases ha : gItalSearch a with
    | some x =>
      obtain ⟨p, i, r⟩ := x
      have hs : gItalSearch (a ++ '\n' :: b) = some (p, i, r ++ '\n' :: b) := by
        rw [gItalSearch_nl, ha]
      have hr := gItalSearch_len a p i r ha
      have hne : a ≠ [] := by intro he; subst he; simp [gItalSearch] at ha
      have hpos : 0 < a.length := List.length_pos.mpr hne
      rw [gItalRepl_some _ _ _ _ hs, gItalRepl_some _ _ _ _ ha]
      cases n with
      | zero => omega
      | succ n =>
        rw [ih n (by omega) r (by omega) b]
        simp [List.append_assoc]
    | none =>
      cases hb : gItalSearch b with
      | some x =>
        obtain ⟨p, i, r⟩ := x
        have hs : gItalSearch (a ++ '\n' :: b) = some (a ++ '\n' :: p, i, r) := by
          rw [gItalSearch_nl, ha, hb]
          rfl
        rw [gItalRepl_some _ _ _ _ hs, gItalRepl_none a ha, gItalRepl_some _ _ _ _ hb]
        simp [List.append_assoc]
      | none =>
        have hs : gItalSearch (a ++ '\n' :: b) = none := by
          rw [gItalSearch_nl, ha, hb]
          rfl
        rw [gItalRepl_none _ hs, gItalRepl_none a ha, gItalRepl_none b hb]

theorem gItalRepl_join : ∀ ls : List Str,
    gItalRepl (joinNl ls) = joinNl (ls.map gItalRepl) := by
  intro ls
  induction ls with
  | nil => rfl
  | cons l ls ih =>
    cases ls with
    | nil => rfl
    | cons x xs =>
      rw [show joinNl (l :: x :: xs) = l ++ '\n' :: joinNl (x :: xs) from rfl]
      rw [gItalRepl_nl l.length l (le_refl _) (joinNl (x :: xs)), ih]
      rfl


theorem txtStripGo_fuel : ∀ (n : Nat) (s : Str) (b : Bool), s.length ≤ n →
    txtStripGo n s b = txtStripHeadings s b := by
  intro n
  induction n using Nat.strong_induction_on with
  | _ n ih =>
    intro s b hlen
    cases s with
    | nil => cases n <;> rfl
    | cons c t =>
      cases n with
      | zero => simp at hlen
      | succ n =>
        rw [txtStripHeadings]
        simp only [List.length_cons]
        have hlen2 : t.length + 1 ≤ n + 1 := by simpa using hlen
        cases b with
        | false =>
          simp only [txtStripGo]
          rw [ih n (by omega) t _ (by omega), ih t.length (by omega) t _ (by omega)]
        | true =>
          simp only [txtStripGo]
          cases hm : txtHeadMatch (c :: t) with
          | some pr =>
            obtain ⟨ws, r⟩ := pr
            have hr := txtHeadMatch_len (c :: t) ws r hm
            simp only [List.length_cons] at hr
            dsimp only
            rw [ih n (by omega) r _ (by omega), ih t.length (by omega) r _ (by omega)]
          | none =>
            rw [ih n (by omega) t _ (by omega), ih t.length (by omega) t _ (by omega)]

theorem txtStrip_nil (b : Bool) : txtStripHeadings [] b = [] := rfl

theorem txtStrip_cons_false (c : Char) (t : Str) :
    txtStripHeadings (c :: t) false = c :: txtStripHeadings t (jsLineTerminator c) := by
  rw [txtStripHeadings]
  simp only [List.length_cons, txtStripGo]
  rw [txtStripGo_fuel t.length t _ (le_refl _)]

theorem txtStrip_cons_true (c : Char) (t : Str) :
    txtStripHeadings (c :: t) true =
      (match txtHeadMatch (c :: t) with
       | some (ws, r) => txtStripHeadings r ((ws.getLast?.map jsLineTerminator).getD false)
       | none => c :: txtStripHeadings t (jsLineTerminator c)) := by
  rw [txtStripHeadings]
  simp only [List.length_cons, txtStripGo]
  cases hm : txtHeadMatch (c :: t) with
  | some pr =>
    obtain ⟨ws, r⟩ := pr
    have hr := txtHeadMatch_len (c :: t) ws r hm
    simp only [List.length_cons] at hr
    dsimp only
    rw [txtStripGo_fuel t.length r _ (by omega)]
  | none =>
    rw [txtStripGo_fuel t.length t _ (le_refl _)]

theorem txtStrip_copy : ∀ s : Str, (∀ c ∈ s, jsLineTerminator c = false) →
    txtStripHeadings s false = s := by
  intro s
  induction s with
  | nil => intro _; rfl
  | cons c t ih =>
    intro h
    rw [txtStrip_cons_false]
    have hc : jsLineTerminator c = false := h c (by simp)
    rw [hc, ih (fun a ha => h a (by simp [ha]))]

theorem txtStrip_copy_line : ∀ (a : Str), (∀ c ∈ a, jsLineTerminator c = false) → ∀ b : Str,
    txtStripHeadings (a ++ '\n' :: b) false = a ++ '\n' :: txtStripHeadings b true := by
  intro a
  induction a with
  | nil =>
    intro _ b
    rw [List.nil_append, txtStrip_cons_false]
    rw [show jsLineTerminator '\n' = true from by decide]
    rfl
  | cons c t ih =>
    intro h b
    rw [List.cons_append, txtStrip_cons_false]
    have hc : jsLineTerminator c = false := h c (by simp)
    rw [hc, ih (fun x hx => h x (by simp [hx])) b]
    rfl

theorem txtHeadMatch_not_hash (c : Char) (hc : c ≠ '#') (w : Str) :
    txtHeadMatch (c :: w) = none := by
  rw [txtHeadMatch]
  rw [if_neg hc]

theorem txtHeadMatch_h1 (d : Char) (hd : jsWhitespace d = false) (w : Str) :
    txtHeadMatch ('#' :: ' ' :: d :: w) = some ([' '], d :: w) := by
  simp [txtHeadMatch, List.takeWhile_cons, List.dropWhile_cons, hd,
    (by decide : jsWhitespace ' ' = true)]

theorem txtHeadMatch_h2 (d : Char) (hd : jsWhitespace d = false) (w : Str) :
    txtHeadMatch ('#' :: '#' :: ' ' :: d :: w) = some ([' '], d :: w) := by
  simp [txtHeadMatch, List.takeWhile_cons, List.dropWhile_cons, hd,
    (by decide : jsWhitespace ' ' = true)]

theorem txtHeadMatch_one_nows (c : Char) (hc1 : c ≠ '#') (hc2 : jsWhitespace c = false)
    (w : Str) : txtHeadMatch ('#' :: c :: w) = none := by
  simp [txtHeadMatch, List.takeWhile_cons, List.dropWhile_cons, hc1, hc2]

theorem txtHeadMatch_two_nows (c : Char) (hc2 : jsWhitespace c = false) (w : Str) :
    txtHeadMatch ('#' :: '#' :: c :: w) = none := by
  simp [txtHeadMatch, List.takeWhile_cons, List.dropWhile_cons, hc2]

/-!
The spec's plain-text pipeline (§4.3 with the line handling of §4.1), as a
second definition written from the spec's words, and the line conditions
under which the code's multiline regexes coincide with it.
-/

/-- Following the spec's words: strip the heading prefix from lines
classified as headings (classification as in §4.1 on the trimmed line). -/
def specHeadDrop (t : Str) : Str :=
  if t = [] then t
  else if ['#', ' '].isPrefixOf t then t.drop 2
  else if ['#', '#', ' '].isPrefixOf t then t.drop 3
  else t

/-- Following the spec's words: trim the line, strip the heading prefix,
and remove all bold then italic emphasis markers (modelled by the same
global replacements the exporters use, since the spec fixes no other
removal mechanism). -/
def specTxtLine (l : Str) : Str := gItalRepl (gBoldRepl (specHeadDrop (jsTrim l)))

/-- Following the spec's words: split on line breaks, process each line,
re-concatenate in order and trim the whole document. -/
def specTxtPipeline (content : Str) : Str :=
  jsTrim (joinNl ((splitNl content).map specTxtLine))

/-- Shape condition under which the TXT heading regex consumes exactly the
spec's heading prefix (or nothing): after one or two hashes, either no
whitespace follows, or the separator is a single space followed by a
non-whitespace character. -/
def hashShapeOk (l : Str) : Bool :=
  match l with
  | [] => true
  | c1 :: rest =>
    if c1 = '#' then
      match rest with
      | [] => false
      | c2 :: rest2 =>
        if c2 = '#' then
          match rest2 with
          | [] => false
          | c3 :: rest3 =>
            if c3 = ' ' then
              match rest3 with
              | [] => false
              | d :: _ => !jsWhitespace d
            else !jsWhitespace c3
        else if c2 = ' ' then
          match rest2 with
          | [] => false
          | d :: _ => !jsWhitespace d
        else !jsWhitespace c2
    else true

/-- A line on which the code's per-line-start regex behaves exactly like
the spec's per-line pipeline: already trimmed, with a well-shaped hash
prefix. -/
def lineOk (l : Str) : Bool :=
  decide (jsTrim l = l) && l.all (fun c => !jsLineTerminator c) && hashShapeOk l

theorem txtStrip_skip (c : Char) (t : Str) (hnl : ∀ x ∈ c :: t, jsLineTerminator x = false)
    (hm1 : txtHeadMatch (c :: t) = none)
    (hm2 : ∀ b : Str, txtHeadMatch (c :: (t ++ '\n' :: b)) = none) :
    txtStripHeadings (c :: t) true = c :: t ∧
    ∀ b : Str, txtStripHeadings ((c :: t) ++ '\n' :: b) true =
      (c :: t) ++ '\n' :: txtStripHeadings b true := by
  have hc : jsLineTerminator c = false := hnl c (by simp)
  constructor
  · rw [txtStrip_cons_true, hm1]
    dsimp only
    rw [hc, txtStrip_copy t (fun x hx => hnl x (by simp [hx]))]
  · intro b
    rw [List.cons_append, txtStrip_cons_true, hm2 b]
    dsimp only
    rw [hc, txtStrip_copy_line t (fun x hx => hnl x (by simp [hx])) b]
    rfl

theorem txtStrip_line (l : Str) (hnl : ∀ c ∈ l, jsLineTerminator c = false)
    (hok : hashShapeOk l = true) :
    txtStripHeadings l true = specHeadDrop l ∧
    ∀ b : Str, txtStripHeadings (l ++ '\n' :: b) true =
      specHeadDrop l ++ '\n' :: txtStripHeadings b true := by
  cases l with
  | nil =>
    constructor
    · rfl
    · intro b
      rw [List.nil_append, txtStrip_cons_true, txtHeadMatch_not_hash '\n' (by decide) b]
      dsimp only
      rw [show jsLineTerminator '\n' = true from by decide]
      rfl
  | cons c t =>
    by_cases hc : c = '#'
    · subst hc
      cases t with
      | nil => exact absurd hok (by simp [hashShapeOk])
      | cons c2 t2 =>
        by_cases hc2 : c2 = '#'
        · subst hc2
          cases t2 with
          | nil => exact absurd hok (by simp [hashShapeOk])
          | cons c3 t3 =>
            by_cases hc3 : c3 = ' '
            · subst hc3
              cases t3 with
              | nil => exact absurd hok (by simp [hashShapeOk])
              | cons d t4 =>
                have hd : jsWhitespace d = false := by
                  simp [hashShapeOk] at hok
                  exact hok
                have hsd : specHeadDrop ('#' :: '#' :: ' ' :: d :: t4) = d :: t4 := by
                  simp [specHeadDrop, List.isPrefixOf]
                have hnl4 : ∀ x ∈ (d :: t4 : Str), jsLineTerminator x = false :=
                  fun x hx => hnl x (by simp at hx ⊢; tauto)
                rw [hsd]
                constructor
                · rw [txtStrip_cons_true, txtHeadMatch_h2 d hd t4]
                  dsimp only
                  rw [show ((([' '] : Str).getLast?.map jsLineTerminator).getD false) = false from by decide]
                  rw [txtStrip_copy (d :: t4) hnl4]
                · intro b
                  rw [show (('#' :: '#' :: ' ' :: d :: t4 : Str) ++ '\n' :: b) =
                      '#' :: '#' :: ' ' :: d :: (t4 ++ '\n' :: b) from by simp]
                  rw [txtStrip_cons_true, txtHeadMatch_h2 d hd (t4 ++ '\n' :: b)]
                  dsimp only
                  rw [show ((([' '] : Str).getLast?.map jsLineTerminator).getD false) = false from by decide]
                  rw [show (d :: (t4 ++ '\n' :: b) : Str) = (d :: t4) ++ '\n' :: b from rfl]
                  rw [txtStrip_copy_line (d :: t4) hnl4 b]
            · have hws : jsWhitespace c3 = false := by
                simp [hashShapeOk, hc3] at hok
                exact hok
              have hc3' : ¬(' ' = c3) := fun h => hc3 h.symm
              have hsd : specHeadDrop ('#' :: '#' :: c3 :: t3) = '#' :: '#' :: c3 :: t3 := by
                simp [specHeadDrop, List.isPrefixOf, hc3, hc3']
              rw [hsd]
              refine txtStrip_skip '#' ('#' :: c3 :: t3) hnl
                (txtHeadMatch_two_nows c3 hws t3) ?_
              intro b
              rw [show (('#' :: c3 :: t3 : Str) ++ '\n' :: b) =
                  '#' :: c3 :: (t3 ++ '\n' :: b) from by simp]
              exact txtHeadMatch_two_nows c3 hws (t3 ++ '\n' :: b)
        · by_cases hc2s : c2 = ' '
          · subst hc2s
            cases t2 with
            | nil => exact absurd hok (by simp [hashShapeOk])
            | cons d t3 =>
              have hd : jsWhitespace d = false := by
                simp [hashShapeOk] at hok
                exact hok
              have hsd : specHeadDrop ('#' :: ' ' :: d :: t3) = d :: t3 := by
                simp [specHeadDrop, List.isPrefixOf]
              have hnl3 : ∀ x ∈ (d :: t3 : Str), jsLineTerminator x = false :=
                fun x hx => hnl x (by simp at hx ⊢; tauto)
              rw [hsd]
              constructor
              · rw [txtStrip_cons_true, txtHeadMatch_h1 d hd t3]
                dsimp only
                rw [show ((([' '] : Str).getLast?.map jsLineTerminator).getD false) = false from by decide]
                rw [txtStrip_copy (d :: t3) hnl3]
              · intro b
                rw [show (('#' :: ' ' :: d :: t3 : Str) ++ '\n' :: b) =
                    '#' :: ' ' :: d :: (t3 ++ '\n' :: b) from by simp]
                rw [txtStrip_cons_true, txtHeadMatch_h1 d hd (t3 ++ '\n' :: b)]
                dsimp only
                rw [show ((([' '] : Str).getLast?.map jsLineTerminator).getD false) = false from by decide]
                rw [show (d :: (t3 ++ '\n' :: b) : Str) = (d :: t3) ++ '\n' :: b from rfl]
                rw [txtStrip_copy_line (d :: t3) hnl3 b]
          · have hws : jsWhitespace c2 = false := by
              simp [hashShapeOk, hc2, hc2s] at hok
              exact hok
            have hc2n : ¬('#' = c2) := fun h => hc2 h.symm
            have hc2sn : ¬(' ' = c2) := fun h => hc2s h.symm
            have hsd : specHeadDrop ('#' :: c2 :: t2) = '#' :: c2 :: t2 := by
              simp [specHeadDrop, List.isPrefixOf, hc2, hc2s, hc2n, hc2sn]
            rw [hsd]
            refine txtStrip_skip '#' (c2 :: t2) hnl
              (txtHeadMatch_one_nows c2 hc2 hws t2) ?_
            intro b
            rw [show ((c2 :: t2 : Str) ++ '\n' :: b) = c2 :: (t2 ++ '\n' :: b) from by simp]
            exact txtHeadMatch_one_nows c2 hc2 hws (t2 ++ '\n' :: b)
    · have hcn : ¬('#' = c) := fun h => hc h.symm
      have hsd : specHeadDrop (c :: t) = c :: t := by
        simp [specHeadDrop, List.isPrefixOf, hc, hcn]
      rw [hsd]
      exact txtStrip_skip c t hnl (txtHeadMatch_not_hash c hc t)
        (fun b => txtHeadMatch_not_hash c hc (t ++ '\n' :: b))

theorem txtStrip_lines : ∀ ls : List Str,
    (∀ l ∈ ls, (∀ c ∈ l, jsLineTerminator c = false) ∧ hashShapeOk l = true) →
    txtStripHeadings (joinNl ls) true = joinNl (ls.map specHeadDrop) := by
  intro ls
  induction ls with
  | nil => intro _; rfl
  | cons l ls ih =>
    intro h
    cases ls with
    | nil =>
      exact (txtStrip_line l (h l (by simp)).1 (h l (by simp)).2).1
    | cons x xs =>
      rw [show joinNl (l :: x :: xs) = l ++ '\n' :: joinNl (x :: xs) from rfl]
      rw [(txtStrip_line l (h l (by simp)).1 (h l (by simp)).2).2 (joinNl (x :: xs))]
      rw [ih (fun a ha => h a (by simp [ha]))]
      rfl

/-- C6 (amended): the plain-text renderer realizes the spec's line
pipeline only when every input line is already trimmed, contains no
carriage return or Unicode line-separator characters (which the multiline
anchor also treats as line breaks), and has its heading markers separated
from non-blank text by exactly one space: under those conditions the
output equals split / strip-heading-prefix / remove-bold-then-italic-pairs
/ rejoin / document-trim.  In general the code performs no per-line
trimming — heading prefixes are recognized only at line-terminator
positions — and the spec's end-to-end example produces exactly the stated
output. -/
theorem c6_plain_text_pipeline :
    (∀ content : Str, (∀ l ∈ splitNl content, lineOk l = true) →
      TXTExporter.stripMarkdown content = specTxtPipeline content) ∧
    TXTExporter.stripMarkdown "# Title\n\nThis is **bold** and *italic*.".data =
      "Title\n\nThis is bold and italic.".data := by
  constructor
  · intro content hok
    have hparts : ∀ l ∈ splitNl content,
        (jsTrim l = l) ∧ (∀ c ∈ l, jsLineTerminator c = false) ∧
          hashShapeOk l = true := by
      intro l hl
      have h := hok l hl
      unfold lineOk at h
      rw [Bool.and_eq_true] at h
      obtain ⟨h12, h3⟩ := h
      rw [Bool.and_eq_true] at h12
      obtain ⟨h1, h2⟩ := h12
      refine ⟨of_decide_eq_true h1, ?_, h3⟩
      intro c hc
      have hx := List.all_eq_true.mp h2 c hc
      simpa using hx
    unfold TXTExporter.stripMarkdown specTxtPipeline
    have hstrip : txtStripHeadings content true =
        joinNl ((splitNl content).map specHeadDrop) := by
      conv_lhs => rw [show content = joinNl (splitNl content) from
        (joinNl_splitNl content).symm]
      exact txtStrip_lines (splitNl content) (fun l hl =>
        ⟨(hparts l hl).2.1, (hparts l hl).2.2⟩)
    rw [hstrip, gBoldRepl_join, gItalRepl_join]
    congr 1
    rw [List.map_map, List.map_map]
    congr 1
    apply List.map_congr_left
    intro l hl
    have htrim : jsTrim l = l := (hparts l hl).1
    simp only [Function.comp_apply]
    unfold specTxtLine
    rw [htrim]
  · decide

/-- Witness for C6 at a two-line document whose lines are trimmed and
well-shaped. -/
theorem c6_plain_text_pipeline_witness :
    TXTExporter.stripMarkdown "# Hi\nworld".data =
      specTxtPipeline "# Hi\nworld".data :=
  c6_plain_text_pipeline.1 "# Hi\nworld".data (by decide)

/-- Counterexample for C6 as stated: the claim requires per-line trimming
before classification, but the code recognizes heading markers only at
absolute line starts, so a heading line with leading whitespace keeps its
prefix. -/
theorem c6_plain_text_pipeline_counterexample :
    TXTExporter.stripMarkdown " # Title".data = "# Title".data ∧
    specTxtPipeline " # Title".data = "Title".data ∧
    ("# Title".data : Str) ≠ "Title".data := ⟨by decide, by decide, by decide⟩
